import Mathlib

/-!
# sqltojson: the record builder, mapping inference, validation and writers

A shallow embedding of `config.go`, `db.go` and `worker.go`.

* Go maps (`sqlagent.Record`, `Params`, `Schema.Nested`, `Mapping.Properties`)
  are association lists; `Map.get?` reads the first binding of a key, `Map.set`
  rebinds a key in place or appends it, `Map.delete` removes every binding.  A
  Go map has one binding per key, which is the `Map.Nodup` side condition of
  the statements that need it, and `range` visits the bindings in list order:
  a statement proved for every list holds for every iteration order.
* The `*Mapping` held by each `Schema` node is mutable and aliased (a parent's
  `Properties[name]` points at the child's `Mapping`), so the mappings live in
  a store addressed by the node's path from the root, and a property is either
  a mapping allocated by `setProp` or a pointer to a node's mapping.  The
  store holds an allocated mapping at every node, which is the state `Validate`
  establishes before `Run` builds anything.
* The database is a function from the query text and the parameters to the
  rows or an error.
-/

namespace Sqltojson

/-! ## Values and maps -/

/-- A dynamically typed Go value (`interface{}`) as it occurs in a record: the
nil interface, each of the dynamic types the type switch of `setProp` tells
apart, and any other dynamic type (named by its `%T` text). -/
inductive Value where
  | null
  | records (rows : List (List (String × Value)))
  | string (s : String)
  | bool (b : Bool)
  | uint8 (n : Nat)
  | int8 (n : Int)
  | int16 (n : Int)
  | int (n : Int)
  | int32 (n : Int)
  | int64 (n : Int)
  | float32 (bits : Nat)
  | float64 (bits : Nat)
  | time (unixNano : Int)
  | other (typeName : String)

/-- The type `sqlagent.Record`, a `map[string]interface{}`; a record is a map
made by `make(sqlagent.Record)`, as in `FetchAll` and `ReadSource`, not nil. -/
abbrev Record := List (String × Value)

/-- The type `Params`, a `map[string]interface{}`. -/
abbrev Params := List (String × Value)

/-- The map read `_, ok := m[key]` / `v := m[key]`: the binding of `key`. -/
def Map.get? {α : Type} : List (String × α) → String → Option α
  | [], _ => none
  | (k, v) :: m, key => if k = key then some v else Map.get? m key

/-- The map write `m[key] = v`. -/
def Map.set {α : Type} : List (String × α) → String → α → List (String × α)
  | [], key, v => [(key, v)]
  | (k, x) :: m, key, v => if k = key then (k, v) :: m else (k, x) :: Map.set m key v

/-- The builtin `delete(m, key)`. -/
def Map.delete {α : Type} (m : List (String × α)) (key : String) : List (String × α) :=
  m.filter (fun kv => decide (kv.1 ≠ key))

/-- The keys of a map. -/
def Map.keys {α : Type} (m : List (String × α)) : List String := m.map Prod.fst

/-- Every key is bound once, as in a Go map. -/
def Map.Nodup {α : Type} (m : List (String × α)) : Prop := (Map.keys m).Nodup

instance {α : Type} (m : List (String × α)) : Decidable (Map.Nodup m) := by
  unfold Map.Nodup; infer_instance

/-- The index expression `rec[key]`, which is nil for a missing key. -/
def Record.index (rec : Record) (key : String) : Value :=
  (Map.get? rec key).getD Value.null

/-! ## Schema and mapping (config.go) -/

/-- A schema node is identified by the child names leading to it from the root. -/
abbrev Path := List String

/-- A `*Mapping` stored in `Mapping.Properties`: either the mapping `setProp`
allocates (`&Mapping{}` with its `Type` set, no properties), or the mapping of
the schema node at a path (`nested.Mapping`). -/
inductive PropRef where
  | fresh (type : String)
  | node (path : Path)
  deriving DecidableEq, Repr

/-- The struct `Mapping` of a schema node (`Index` and `Format` are never
written by the program). -/
structure Mapping where
  type : String
  properties : List (String × PropRef)
  deriving DecidableEq, Repr

/-- The struct `Schema` without its `Mapping` pointer, which is the store cell
at the node's path; `Params` is read nowhere in the program. -/
inductive Schema where
  | mk (type : String) (key : List String) (exclude : List String) (sql : String)
      (nested : Option (List (String × Schema)))

namespace Schema

def type : Schema → String
  | mk t _ _ _ _ => t

def key : Schema → List String
  | mk _ k _ _ _ => k

def exclude : Schema → List String
  | mk _ _ e _ _ => e

def sql : Schema → String
  | mk _ _ _ q _ => q

def nested : Schema → Option (List (String × Schema))
  | mk _ _ _ _ n => n

/-- The entries `range s.Nested` visits (none for a nil map). -/
def children (s : Schema) : List (String × Schema) := s.nested.getD []

end Schema

/-- The mappings of all schema nodes. -/
abbrev Store := Path → Mapping

/-- The mapping `Validate` allocates. -/
def emptyMapping : Mapping := { type := "nested", properties := [] }

def Store.write (h : Store) (p : Path) (m : Mapping) : Store :=
  fun q => if q = p then m else h q

/-- The method `SetProperty` of the node at `p`. -/
def SetProperty (h : Store) (p : Path) (key : String) (prop : PropRef) : Store :=
  Store.write h p { h p with properties := Map.set (h p).properties key prop }

/-- The method `hasProp` of the node at `p`. -/
def hasProp (h : Store) (p : Path) (key : String) : Bool :=
  (Map.get? (h p).properties key).isSome

/-- The `Type` the type switch of `setProp` assigns; the default case leaves
the zero value of the field. -/
def propType : Value → String
  | .records _ => "nested"
  | .string _ => "string"
  | .bool _ => "boolean"
  | .uint8 _ => "byte"
  | .int8 _ => "byte"
  | .int16 _ => "short"
  | .int _ => "integer"
  | .int32 _ => "integer"
  | .int64 _ => "long"
  | .float32 _ => "float"
  | .float64 _ => "double"
  | .time _ => "date"
  | _ => ""

/-- The method `setProp` (the message on standard error is not modelled). -/
def setProp (h : Store) (p : Path) (key : String) (val : Value) : Store :=
  SetProperty h p key (PropRef.fresh (propType val))

/-- The comparison `val == nil`. -/
def Value.isNil : Value → Bool
  | .null => true
  | _ => false

/-- The method `InferMapping` of the node at `p`. -/
def InferMapping (h : Store) (p : Path) : Record → Store
  | [] => h
  | (key, val) :: rec =>
    if hasProp h p key then InferMapping h p rec
    else if val.isNil then InferMapping h p rec
    else InferMapping (setProp h p key val) p rec

/-! ## The record builder (db.go) -/

/-- The database connection. -/
abbrev DB := String → Params → Except String (List Record)

def BuildParams (rec : Record) (keys : List String) : Params :=
  keys.foldl (fun params key => Map.set params key (Record.index rec key)) []

def FetchAll (db : DB) (query : String) (params : Params) : Except String (List Record) :=
  db query params

/-- What a call of `Build` leaves behind: the mappings, the record (mutated in
place, also when the call fails) and the returned error. -/
structure BuildResult where
  store : Store
  record : Record
  err : Option String

/-- The loop `for _, child := range children` of `Build`, with the recursive
call as `build`: the children are built in order until one fails; the failing
child keeps what its build did to it and the later ones are untouched. -/
def buildEach (build : Store → Record → BuildResult) :
    Store → List Record → Store × List Record × Option String
  | h, [] => (h, [], none)
  | h, child :: rest =>
    match (build h child).err with
    | some e => ((build h child).store, (build h child).record :: rest, some e)
    | none =>
      (  (buildEach build (build h child).store rest).1,
         (build h child).record :: (buildEach build (build h child).store rest).2.1,
         (buildEach build (build h child).store rest).2.2)

/-- The statements of `Build` after the loop over the nested schemas. -/
def finishBuild (exclude : List String) (p : Path) (h : Store) (rec : Record) : BuildResult :=
  ⟨InferMapping h p (exclude.foldl Map.delete rec), exclude.foldl Map.delete rec, none⟩

mutual

/-- The function `Build` for the node at path `p`. -/
def Build (db : DB) : Schema → Path → Store → Record → BuildResult
  | .mk _ _ exclude _ none, p, h, rec => finishBuild exclude p h rec
  | .mk _ key exclude _ (some cs), p, h, rec =>
    match (buildNested db cs p (BuildParams rec key) h rec).err with
    | some e =>
      ⟨(buildNested db cs p (BuildParams rec key) h rec).store,
        (buildNested db cs p (BuildParams rec key) h rec).record, some e⟩
    | none =>
      finishBuild exclude p (buildNested db cs p (BuildParams rec key) h rec).store
        (buildNested db cs p (BuildParams rec key) h rec).record

/-- The loop `for key, nested := range schema.Nested` of `Build`. -/
def buildNested (db : DB) : List (String × Schema) → Path → Params → Store → Record → BuildResult
  | [], _, _, h, rec => ⟨h, rec, none⟩
  | (key, nested) :: rest, p, params, h, rec =>
    match FetchAll db nested.sql params with
    | .error e => ⟨h, rec, some e⟩
    | .ok children =>
      match (buildEach (Build db nested (p ++ [key])) h children).2.2 with
      | some e =>
        ⟨(buildEach (Build db nested (p ++ [key])) h children).1,
          Map.set rec key (Value.records (buildEach (Build db nested (p ++ [key])) h children).2.1),
          some e⟩
      | none =>
        buildNested db rest p params
          (SetProperty (buildEach (Build db nested (p ++ [key])) h children).1 p key
            (PropRef.node (p ++ [key])))
          (Map.set rec key (Value.records (buildEach (Build db nested (p ++ [key])) h children).2.1))

end

/-- The calls `Build(db, config.Schema, rec)` made one after the other on the
root schema, each with its own record and its own state of the database; a
call that fails leaves its writes to the mappings behind like one that
succeeds. -/
def runBuilds (schema : Schema) : Store → List (DB × Record) → Store
  | h, [] => h
  | h, (db, rec) :: rest => runBuilds schema (Build db schema [] h rec).store rest

/-! ## Validation (config.go) -/

mutual

/-- The method `Validate` of the node at `p`: the mappings it leaves behind and
the returned error.  The condition `s.Nested != nil || len(s.Nested) > 0` is
false for the nil map and true for every other map, the empty one included. -/
def Validate : Schema → Path → Store → Store × Option String
  | .mk _ _ _ _ none, p, h => (Store.write h p emptyMapping, none)
  | .mk type key _ _ (some cs), p, h =>
    if key.length = 0 then
      (Store.write h p emptyMapping, some "A key is required to included nested objects.")
    else validateNested type cs p (Store.write h p emptyMapping)

/-- The loop `for n, c := range s.Nested` of `Validate`. -/
def validateNested (type : String) : List (String × Schema) → Path → Store → Store × Option String
  | [], _, h => (h, none)
  | (n, c) :: rest, p, h =>
    match (Validate c (p ++ [n]) h).2 with
    | some err => ((Validate c (p ++ [n]) h).1, some (type ++ "/" ++ n ++ ": " ++ err))
    | none => validateNested type rest p (Validate c (p ++ [n]) h).1

end

/-! ## Vocabulary of the statements -/

mutual

/-- The nested maps of the tree are Go maps: no child name occurs twice under
one node. -/
def Schema.wf : Schema → Bool
  | .mk _ _ _ _ none => true
  | .mk _ _ _ _ (some cs) => decide (Map.Nodup cs) && Schema.wfList cs

def Schema.wfList : List (String × Schema) → Bool
  | [] => true
  | (_, c) :: rest => Schema.wf c && Schema.wfList rest

end

/-- The node a path leads to. -/
def Schema.nodeAt : Schema → Path → Option Schema
  | s, [] => some s
  | s, name :: rest =>
    match Map.get? s.children name with
    | none => none
    | some c => Schema.nodeAt c rest

/-- The `Type` of the mapping registered for a field of the node at `p`, read
through the pointer held in `Properties`. -/
def typeTag (h : Store) (p : Path) (field : String) : Option String :=
  match Map.get? (h p).properties field with
  | none => none
  | some (PropRef.fresh t) => some t
  | some (PropRef.node q) => some (h q).type

mutual

/-- No field of the record is in the exclusion set of the schema, and the same
holds, at every depth, of the records in the lists held under the names of the
nested schemas. -/
def noExcluded : Schema → Record → Bool
  | .mk _ _ exclude _ none, rec => exclude.all (fun f => (Map.get? rec f).isNone)
  | .mk _ _ exclude _ (some cs), rec =>
    exclude.all (fun f => (Map.get? rec f).isNone) && noExcludedNested cs rec

def noExcludedNested : List (String × Schema) → Record → Bool
  | [], _ => true
  | (name, c) :: rest, rec =>
    (match Map.get? rec name with
      | some (Value.records rows) => rows.all (noExcluded c)
      | _ => true) && noExcludedNested rest rec

end

/-- The ten kinds of value the mapping inference is specified for. -/
inductive Kind where
  | nestedRecordList | text | boolean | int8 | int16 | int32 | int64 | float32 | float64
  | timestamp
  deriving DecidableEq, Repr

/-- The type tag specified for each kind. -/
def Kind.tag : Kind → String
  | .nestedRecordList => "nested"
  | .text => "string"
  | .boolean => "boolean"
  | .int8 => "byte"
  | .int16 => "short"
  | .int32 => "integer"
  | .int64 => "long"
  | .float32 => "float"
  | .float64 => "double"
  | .timestamp => "date"

/-- The kind of a value: `byte` stands with `int8` and `int` with `int32`, as
the cases of the type switch group them; nil and the dynamic types the switch
does not list have none. -/
def Value.kind : Value → Option Kind
  | .records _ => some .nestedRecordList
  | .string _ => some .text
  | .bool _ => some .boolean
  | .uint8 _ => some .int8
  | .int8 _ => some .int8
  | .int16 _ => some .int16
  | .int _ => some .int32
  | .int32 _ => some .int32
  | .int64 _ => some .int64
  | .float32 _ => some .float32
  | .float64 _ => some .float64
  | .time _ => some .timestamp
  | _ => none

/-- Some node of the tree has at least one nested child and an empty key set. -/
def Schema.nestedWithoutKey (s : Schema) : Prop :=
  ∃ p n, Schema.nodeAt s p = some n ∧ n.children ≠ [] ∧ n.key = []

/-- The mappings `h2` hold every property the mappings `h` hold, with the same
pointer, and the mappings of the nodes have kept their `Type`. -/
def Store.Grows (h h2 : Store) : Prop :=
  ∀ q, (h2 q).type = (h q).type
    ∧ ∀ key e, Map.get? (h q).properties key = some e → Map.get? (h2 q).properties key = some e

/-- The state of the mapping `m` of the node `n` at `p` between two builds: a
property under the name of a nested schema is the pointer to the mapping of
that schema, and a field of the exclusion set that is not such a name has no
property. -/
def CellInv (n : Schema) (p : Path) (m : Mapping) : Prop :=
  (∀ key ∈ Map.keys n.children,
      Map.get? m.properties key = none
        ∨ Map.get? m.properties key = some (PropRef.node (p ++ [key])))
    ∧ (∀ f ∈ n.exclude, f ∉ Map.keys n.children → Map.get? m.properties f = none)

/-- The mappings of all nodes of the tree `s` rooted at `p` are in the state
`CellInv`. -/
def TreeInv (s : Schema) (p : Path) (h : Store) : Prop :=
  ∀ q n, Schema.nodeAt s q = some n → CellInv n (p ++ q) (h (p ++ q))

/-! ## The worker (worker.go) -/

/-- The value a Go `int` of 64 bits holds after an arithmetic result `x`. -/
def wrapInt64 (x : Int) : Int := (x + 2 ^ 63) % 2 ^ 64 - 2 ^ 63

/-- How the retry loop of `Worker.Start` is left: through `log.Fatalf`, which
ends the process, or through the `break` after the attempt that succeeded
(attempts are counted from 0). -/
inductive RetryExit where
  | fatal (store : Store) (record : Record)
  | built (attempt : Nat) (store : Store) (record : Record)

/-- The inner `for` loop of `Worker.Start` on one task of the root schema.
`maxRetries` is `w.config.MaxRetries`; `i` is the loop counter; the `n`-th call
of `Build` (from 0) meets the database in the state `dbAt n`, and `fuel` bounds
the number of iterations (`none`: not left within `fuel` iterations). -/
def retryLoop (maxRetries : Int) (dbAt : Nat → DB) (schema : Schema) :
    Nat → Int → Nat → Store → Record → Option RetryExit
  | 0, _, _, _, _ => none
  | fuel + 1, i, n, h, rec =>
    if i = maxRetries then some (RetryExit.fatal h rec)
    else
      match (Build (dbAt n) schema [] h rec).err with
      | some _ =>
        retryLoop maxRetries dbAt schema fuel (wrapInt64 (i + 1)) (n + 1)
          (Build (dbAt n) schema [] h rec).store (Build (dbAt n) schema [] h rec).record
      | none =>
        some (RetryExit.built n (Build (dbAt n) schema [] h rec).store
          (Build (dbAt n) schema [] h rec).record)

/-- What the worker has done when it is through with one task: whether the
process was terminated, and what was sent on the output and stats channels (a
stats sample is the time since the start of an attempt, recorded here as the
number of that attempt). -/
structure TaskEffect where
  exited : Bool
  output : List Record
  stats : List Nat
  store : Store

/-- The body of `Worker.Start` for one task taken from the queue; `cancelled`
tells whether the final `select` takes the branch of `cxt.Done()`. -/
def processTask (maxRetries : Int) (dbAt : Nat → DB) (schema : Schema) (fuel : Nat)
    (cancelled : Bool) (h : Store) (rec : Record) : Option TaskEffect :=
  match retryLoop maxRetries dbAt schema fuel 0 0 h rec with
  | none => none
  | some (RetryExit.fatal h1 _) => some ⟨true, [], [], h1⟩
  | some (RetryExit.built n h1 rec1) =>
    if cancelled then some ⟨false, [], [], h1⟩ else some ⟨false, [rec1], [n], h1⟩

/-- The state in which the `n`-th call of `Build` by the retry loop finds the
mappings and the record, when the calls before it failed. -/
def attemptState (dbAt : Nat → DB) (schema : Schema) (h : Store) (rec : Record) :
    Nat → Store × Record
  | 0 => (h, rec)
  | n + 1 =>
    ((Build (dbAt n) schema [] (attemptState dbAt schema h rec n).1
        (attemptState dbAt schema h rec n).2).store,
      (Build (dbAt n) schema [] (attemptState dbAt schema h rec n).1
        (attemptState dbAt schema h rec n).2).record)

/-- The `n`-th call of `Build` by the retry loop fails. -/
def attemptFails (dbAt : Nat → DB) (schema : Schema) (h : Store) (rec : Record) (n : Nat) : Bool :=
  (Build (dbAt n) schema [] (attemptState dbAt schema h rec n).1
    (attemptState dbAt schema h rec n).2).err.isSome

/-! ## The data writer (worker.go) -/

/-- The two values `DataWriter` encodes: the action
`\x7b"create": \x7b"_index": index, "_type": type\x7d\x7d` and a record. -/
inductive Doc where
  | action (index : String) (type : String)
  | record (rec : Record)

/-- The function `DataWriter` on the records received from the channel until
it is closed: the values written to the output, in order.  `encode v` is what
`encoder.Encode(v)` writes, `none` when it returns an error (and writes
nothing). -/
def DataWriter (encode : Doc → Option String) (index type : String) : List Record → List String
  | [] => []
  | rec :: rest =>
    match encode (Doc.action index type) with
    | none => DataWriter encode index type rest
    | some header =>
      match encode (Doc.record rec) with
      | none => header :: DataWriter encode index type rest
      | some body => header :: body :: DataWriter encode index type rest

/-- The data output as it is specified: in order, one header/record pair for
each record whose encoding succeeds and nothing for a record whose encoding
fails. -/
def specDataOutput (encode : Doc → Option String) (index type : String) :
    List Record → List String
  | [] => []
  | rec :: rest =>
    match encode (Doc.action index type), encode (Doc.record rec) with
    | some header, some body => header :: body :: specDataOutput encode index type rest
    | _, _ => specDataOutput encode index type rest

/-! ## Two workers inferring the mapping of one node -/

/-- A worker inside `InferMapping`: the fields `range rec` has not visited yet,
and the field it found unregistered and non-nil and is about to pass to
`setProp`, if it is between `hasProp` and `SetProperty`. -/
structure InferWorker where
  todo : Record
  pending : Option (String × Value)

/-- One step of a worker on the node at `p`: a section under the node lock
(the read of `hasProp`, or the write of `SetProperty`) together with the
lock-free statements that follow it.  A worker that is through does nothing. -/
def InferWorker.step (p : Path) (h : Store) (w : InferWorker) : Store × InferWorker :=
  match w.pending with
  | some (key, val) => (setProp h p key val, ⟨w.todo, none⟩)
  | none =>
    match w.todo with
    | [] => (h, w)
    | (key, val) :: rest =>
      if hasProp h p key then (h, ⟨rest, none⟩)
      else if val.isNil then (h, ⟨rest, none⟩)
      else (h, ⟨rest, some (key, val)⟩)

/-- The mappings and the two workers. -/
structure InferState where
  store : Store
  first : InferWorker
  second : InferWorker

/-- The interleaving of the two workers given by a schedule: `true` lets the
first worker take its next step, `false` the second. -/
def interleave (p : Path) : List Bool → InferState → InferState
  | [], st => st
  | true :: sched, st =>
    interleave p sched
      ⟨(InferWorker.step p st.store st.first).1, (InferWorker.step p st.store st.first).2, st.second⟩
  | false :: sched, st =>
    interleave p sched
      ⟨(InferWorker.step p st.store st.second).1, st.first, (InferWorker.step p st.store st.second).2⟩

/-! ## Sample inputs -/

/-- The mappings of a tree that has just been validated. -/
def sampleStore : Store := fun _ => emptyMapping

/-- A row with a 64-bit integer, a text, a NULL, and a timestamp. -/
def sampleRow : Record :=
  [("id", Value.int64 7), ("name", Value.string "Ann"), ("note", Value.null),
    ("seen", Value.time 0)]

/-- A row whose column was scanned into a byte slice, a dynamic type the type
switch of `setProp` does not list. -/
def blobRow : Record := [("payload", Value.other "[]uint8")]

/-- A node with an empty, non-nil map of nested schemas and no key. -/
def emptyNestedSchema : Schema := Schema.mk "person" [] [] "SELECT * FROM person" (some [])

/-- An encoder that fails on a record with a field holding a float that is not
a number or is infinite (all exponent bits set), as `encoding/json` does for
such a field, and writes a token for every other value. -/
def sampleEncode : Doc → Option String
  | Doc.action index type => some ("create " ++ index ++ "/" ++ type)
  | Doc.record rec =>
    if rec.any (fun kv => match kv.2 with
        | Value.float64 bits => decide (bits / 2 ^ 52 % 2 ^ 11 = 2 ^ 11 - 1)
        | Value.float32 bits => decide (bits / 2 ^ 23 % 2 ^ 8 = 2 ^ 8 - 1)
        | _ => false) then none
    else some ("record of " ++ toString rec.length ++ " fields")

/-- A record `encoding/json` cannot encode. -/
def nanRow : Record := [("ratio", Value.float64 0x7ff8000000000001)]

/-- Two workers on the root node, each at the start of `InferMapping`, with
records that hold the field `code` as a text and as a 64-bit integer. -/
def raceStart : InferState :=
  ⟨sampleStore, ⟨[("code", Value.string "A1")], none⟩, ⟨[("code", Value.int64 17)], none⟩⟩

/-- A schema without nested schemas. -/
def visitSchema : Schema :=
  Schema.mk "visit" [] ["person_id"] "SELECT * FROM visit WHERE person_id = :id" none

/-- A root schema with one nested schema. -/
def personSchema : Schema :=
  Schema.mk "person" ["id"] ["ssn"] "SELECT * FROM person" (some [("visits", visitSchema)])

/-- A database with two visits for the person 7 and none for anyone else. -/
def sampleDB : DB := fun query params =>
  if query = "SELECT * FROM visit WHERE person_id = :id" then
    match Map.get? params "id" with
    | some (Value.int64 7) =>
      Except.ok [[("person_id", Value.int64 7), ("day", Value.time 86400)],
        [("person_id", Value.int64 7), ("day", Value.null)]]
    | _ => Except.ok []
  else Except.error ("no such query: " ++ query)

/-- A database that cannot be reached. -/
def downDB : DB := fun _ _ => Except.error "connection refused"

/-- The database is down for the first two attempts and up from the third. -/
def flakyDB : Nat → DB := fun n => if n < 2 then downDB else sampleDB

/-- A row of the root query. -/
def personRow : Record :=
  [("id", Value.int64 7), ("name", Value.string "Ann"), ("ssn", Value.string "078-05-1120")]

/-- A root schema whose exclusion set names its nested schema. -/
def hiddenVisitsSchema : Schema :=
  Schema.mk "person" ["id"] ["visits"] "SELECT * FROM person" (some [("visits", visitSchema)])

/-- A later row of the root query in which the column `name` is a number. -/
def numberedRow : Record :=
  [("id", Value.int64 8), ("name", Value.int64 42), ("ssn", Value.string "219-09-9999")]

/-- A tree whose root has a key and whose nested schema `visits` has a nested
schema of its own but no key. -/
def keylessVisitsSchema : Schema :=
  Schema.mk "person" ["id"] [] "SELECT * FROM person"
    (some [("visits", Schema.mk "visit" [] [] "SELECT * FROM visit WHERE person_id = :id"
      (some [("notes", Schema.mk "note" [] [] "SELECT * FROM note" none)]))])

/-! ## Maps -/

theorem Map.get?_eq_none_iff {α : Type} (m : List (String × α)) (key : String) :
    Map.get? m key = none ↔ key ∉ Map.keys m := by
  induction m with
  | nil => simp [Map.get?, Map.keys]
  | cons kv m ih =>
    obtain ⟨k, v⟩ := kv
    by_cases hk : k = key
    · simp [Map.get?, Map.keys, hk]
    · have hk2 : ¬ key = k := fun e => hk e.symm
      simpa [Map.get?, Map.keys, hk, hk2] using ih

theorem Map.mem_keys_of_get? {α : Type} {m : List (String × α)} {key : String} {v : α}
    (hget : Map.get? m key = some v) : key ∈ Map.keys m := by
  by_contra hn
  rw [(Map.get?_eq_none_iff m key).2 hn] at hget
  cases hget

theorem Map.mem_of_get? {α : Type} {m : List (String × α)} {key : String} {v : α}
    (hget : Map.get? m key = some v) : (key, v) ∈ m := by
  induction m with
  | nil => simp [Map.get?] at hget
  | cons kv m ih =>
    obtain ⟨k, x⟩ := kv
    by_cases hk : k = key
    · simp [Map.get?, hk] at hget
      simp [hk, hget]
    · simp [Map.get?, hk] at hget
      exact List.mem_cons_of_mem _ (ih hget)

theorem Map.get?_of_mem {α : Type} {m : List (String × α)} {key : String} {v : α}
    (hnd : Map.Nodup m) (hmem : (key, v) ∈ m) : Map.get? m key = some v := by
  induction m with
  | nil => cases hmem
  | cons kv m ih =>
    obtain ⟨k, x⟩ := kv
    have hnd2 : k ∉ Map.keys m ∧ Map.Nodup m := by
      simpa [Map.Nodup, Map.keys] using hnd
    rcases List.mem_cons.1 hmem with heq | htl
    · cases heq
      simp [Map.get?]
    · have hkm : key ∈ Map.keys m := List.mem_map_of_mem Prod.fst htl
      have hne : ¬ k = key := fun e => hnd2.1 (e ▸ hkm)
      simp [Map.get?, hne, ih hnd2.2 htl]

theorem Map.get?_set_self {α : Type} (m : List (String × α)) (key : String) (v : α) :
    Map.get? (Map.set m key v) key = some v := by
  induction m with
  | nil => simp [Map.set, Map.get?]
  | cons kv m ih =>
    obtain ⟨k, x⟩ := kv
    by_cases hk : k = key
    · simp [Map.set, Map.get?, hk]
    · simp [Map.set, Map.get?, hk, ih]

theorem Map.get?_set_ne {α : Type} (m : List (String × α)) {key other : String} (v : α)
    (hne : key ≠ other) : Map.get? (Map.set m key v) other = Map.get? m other := by
  induction m with
  | nil => simp [Map.set, Map.get?, hne]
  | cons kv m ih =>
    obtain ⟨k, x⟩ := kv
    by_cases hk : k = key
    · subst hk
      simp [Map.set, Map.get?, hne]
    · by_cases hko : k = other
      · subst hko
        simp [Map.set, Map.get?, hk]
      · simp [Map.set, Map.get?, hk, hko, ih]

theorem Map.set_eq_append {α : Type} (m : List (String × α)) (key : String) (v : α)
    (hnone : Map.get? m key = none) : Map.set m key v = m ++ [(key, v)] := by
  induction m with
  | nil => simp [Map.set]
  | cons kv m ih =>
    obtain ⟨k, x⟩ := kv
    by_cases hk : k = key
    · simp [Map.get?, hk] at hnone
    · simp [Map.get?, hk] at hnone
      simp [Map.set, hk, ih hnone]

theorem Map.keys_set {α : Type} (m : List (String × α)) (key : String) (v : α) :
    ∀ k, k ∈ Map.keys (Map.set m key v) ↔ k = key ∨ k ∈ Map.keys m := by
  intro k
  induction m with
  | nil => simp [Map.set, Map.keys]
  | cons kv m ih =>
    obtain ⟨k1, x⟩ := kv
    by_cases hk : k1 = key
    · subst hk
      simp [Map.set, Map.keys]
    · simp only [Map.keys] at ih
      simp [Map.set, Map.keys, hk, ih]
      tauto

theorem Map.nodup_set {α : Type} (m : List (String × α)) (key : String) (v : α)
    (hnd : Map.Nodup m) : Map.Nodup (Map.set m key v) := by
  induction m with
  | nil => simp [Map.set, Map.Nodup, Map.keys]
  | cons kv m ih =>
    obtain ⟨k1, x⟩ := kv
    have hnd2 : k1 ∉ Map.keys m ∧ Map.Nodup m := by
      simpa [Map.Nodup, Map.keys] using hnd
    by_cases hk : k1 = key
    · subst hk
      simpa [Map.set, Map.Nodup, Map.keys] using hnd
    · have hmem : k1 ∉ Map.keys (Map.set m key v) := by
        rw [Map.keys_set]
        rintro (h1 | h1)
        · exact hk h1
        · exact hnd2.1 h1
      have htl := ih hnd2.2
      simp only [Map.Nodup, Map.keys] at hmem htl
      simp [Map.set, Map.Nodup, Map.keys, hk, hmem, htl]

theorem Map.get?_delete_self {α : Type} (m : List (String × α)) (key : String) :
    Map.get? (Map.delete m key) key = none := by
  rw [Map.get?_eq_none_iff]
  simp [Map.keys, Map.delete, List.mem_filter]

theorem Map.get?_delete_ne {α : Type} (m : List (String × α)) {key other : String}
    (hne : key ≠ other) : Map.get? (Map.delete m key) other = Map.get? m other := by
  induction m with
  | nil => simp [Map.delete, Map.get?]
  | cons kv m ih =>
    obtain ⟨k, x⟩ := kv
    simp only [Map.delete, ne_eq, decide_not] at ih
    by_cases hk : k = key
    · subst hk
      simp [Map.delete, Map.get?, hne, ih]
    · by_cases hko : k = other
      · subst hko
        simp [Map.delete, Map.get?, hk, List.filter_cons]
      · simp [Map.delete, Map.get?, hk, hko, List.filter_cons, ih]

theorem Map.get?_deleteAll_mem {α : Type} (fields : List String) (m : List (String × α))
    {key : String} (hmem : key ∈ fields) : Map.get? (fields.foldl Map.delete m) key = none := by
  induction fields generalizing m with
  | nil => cases hmem
  | cons f fields ih =>
    simp only [List.foldl_cons]
    by_cases hin : key ∈ fields
    · exact ih _ hin
    · have hf : key = f := by
        rcases List.mem_cons.1 hmem with h1 | h1
        · exact h1
        · exact absurd h1 hin
      subst hf
      clear ih hmem
      induction fields generalizing m with
      | nil => simpa using Map.get?_delete_self m key
      | cons g fields ih2 =>
        have hg : g ≠ key := fun e => hin (by simp [e])
        have hin2 : key ∉ fields := fun e => hin (List.mem_cons_of_mem _ e)
        simp only [List.foldl_cons]
        have hcomm : Map.delete (Map.delete m key) g = Map.delete (Map.delete m g) key := by
          simp [Map.delete, List.filter_filter, Bool.and_comm]
        rw [hcomm]
        exact ih2 _ hin2

theorem Map.get?_deleteAll_not_mem {α : Type} (fields : List String) (m : List (String × α))
    {key : String} (hmem : key ∉ fields) :
    Map.get? (fields.foldl Map.delete m) key = Map.get? m key := by
  induction fields generalizing m with
  | nil => rfl
  | cons f fields ih =>
    have hf : f ≠ key := fun e => hmem (by simp [e])
    have hin : key ∉ fields := fun e => hmem (List.mem_cons_of_mem _ e)
    simp only [List.foldl_cons]
    rw [ih _ hin, Map.get?_delete_ne m hf]

/-! ## Mapping inference -/

theorem Store.write_same (h : Store) (p : Path) (m : Mapping) : Store.write h p m p = m := by
  simp [Store.write]

theorem Store.write_other (h : Store) {p q : Path} (m : Mapping) (hne : q ≠ p) :
    Store.write h p m q = h q := by
  simp [Store.write, hne]

theorem SetProperty_other (h : Store) {p q : Path} (key : String) (prop : PropRef)
    (hne : q ≠ p) : SetProperty h p key prop q = h q := by
  simp [SetProperty, Store.write, hne]

theorem SetProperty_type (h : Store) (p q : Path) (key : String) (prop : PropRef) :
    (SetProperty h p key prop q).type = (h q).type := by
  by_cases hq : q = p
  · subst hq; simp [SetProperty, Store.write]
  · rw [SetProperty_other h key prop hq]

theorem SetProperty_properties (h : Store) (p : Path) (key : String) (prop : PropRef) :
    (SetProperty h p key prop p).properties = Map.set (h p).properties key prop := by
  simp [SetProperty, Store.write]

theorem hasProp_eq_false_iff (h : Store) (p : Path) (key : String) :
    hasProp h p key = false ↔ Map.get? (h p).properties key = none := by
  simp [hasProp]

theorem Value.isNil_iff (v : Value) : v.isNil = true ↔ v = Value.null := by
  cases v <;> simp [Value.isNil]

theorem Value.propType_of_kind {v : Value} {k : Kind} (hk : v.kind = some k) :
    propType v = k.tag := by
  cases v <;> simp [Value.kind] at hk <;> subst hk <;> rfl

theorem InferMapping_other (h : Store) {p q : Path} (rec : Record) (hne : q ≠ p) :
    InferMapping h p rec q = h q := by
  induction rec generalizing h with
  | nil => rfl
  | cons kv rec ih =>
    obtain ⟨key, val⟩ := kv
    simp only [InferMapping]
    split
    · exact ih h
    · split
      · exact ih h
      · rw [ih, setProp, SetProperty_other h key _ hne]

theorem InferMapping_type (h : Store) (p q : Path) (rec : Record) :
    (InferMapping h p rec q).type = (h q).type := by
  induction rec generalizing h with
  | nil => rfl
  | cons kv rec ih =>
    obtain ⟨key, val⟩ := kv
    simp only [InferMapping]
    split
    · exact ih h
    · split
      · exact ih h
      · rw [ih, setProp, SetProperty_type]

/-- A property that is registered is left as it is. -/
theorem InferMapping_keeps (h : Store) (p : Path) (rec : Record) {key : String} {e : PropRef}
    (hreg : Map.get? (h p).properties key = some e) :
    Map.get? (InferMapping h p rec p).properties key = some e := by
  induction rec generalizing h with
  | nil => exact hreg
  | cons kv rec ih =>
    obtain ⟨k, val⟩ := kv
    simp only [InferMapping]
    split
    · exact ih h hreg
    · rename_i hno
      split
      · exact ih h hreg
      · apply ih
        have hne : k ≠ key := by
          intro heq
          subst heq
          simp [hasProp, hreg] at hno
        rw [setProp, SetProperty_properties, Map.get?_set_ne _ _ hne]
        exact hreg

/-- A property that gets registered belongs to a non-nil field of the record
and holds the type of its value. -/
theorem InferMapping_new (h : Store) (p : Path) (rec : Record) {key : String} {e : PropRef}
    (hnone : Map.get? (h p).properties key = none)
    (hreg : Map.get? (InferMapping h p rec p).properties key = some e) :
    ∃ v, (key, v) ∈ rec ∧ v.isNil = false ∧ e = PropRef.fresh (propType v) := by
  induction rec generalizing h with
  | nil => simp [InferMapping, hnone] at hreg
  | cons kv rec ih =>
    obtain ⟨k, val⟩ := kv
    simp only [InferMapping] at hreg
    split at hreg
    · obtain ⟨v, hv, hrest⟩ := ih h hnone hreg
      exact ⟨v, List.mem_cons_of_mem _ hv, hrest⟩
    · split at hreg
      · obtain ⟨v, hv, hrest⟩ := ih h hnone hreg
        exact ⟨v, List.mem_cons_of_mem _ hv, hrest⟩
      · rename_i hnil
        by_cases hk : k = key
        · subst hk
          have hset : Map.get? (setProp h p k val p).properties k
              = some (PropRef.fresh (propType val)) := by
            rw [setProp, SetProperty_properties, Map.get?_set_self]
          have hkept := InferMapping_keeps (setProp h p k val) p rec hset
          rw [hkept] at hreg
          cases hreg
          exact ⟨val, by simp, by simpa using hnil, rfl⟩
        · have hnone2 : Map.get? (setProp h p k val p).properties key = none := by
            rw [setProp, SetProperty_properties, Map.get?_set_ne _ _ hk]
            exact hnone
          obtain ⟨v, hv, hrest⟩ := ih _ hnone2 hreg
          exact ⟨v, List.mem_cons_of_mem _ hv, hrest⟩

/-- The properties after `InferMapping` on a record whose values are nil or of
a recognised kind: the ones before, then one for each unregistered field of a
recognised kind, in the order of the visit. -/
theorem InferMapping_properties (h : Store) (p : Path) (rec : Record) (hnd : Map.Nodup rec)
    (hkind : ∀ kv ∈ rec, kv.2 = Value.null ∨ kv.2.kind.isSome = true) :
    (InferMapping h p rec p).properties =
      (h p).properties ++ rec.filterMap (fun kv =>
        if hasProp h p kv.1 then none
        else kv.2.kind.map (fun k => (kv.1, PropRef.fresh k.tag))) := by
  induction rec generalizing h with
  | nil => simp [InferMapping]
  | cons kv rec ih =>
    obtain ⟨key, val⟩ := kv
    have hnd2 : key ∉ Map.keys rec ∧ Map.Nodup rec := by
      simpa [Map.Nodup, Map.keys] using hnd
    have hkind2 : ∀ kv ∈ rec, kv.2 = Value.null ∨ kv.2.kind.isSome = true :=
      fun kv hkv => hkind kv (List.mem_cons_of_mem _ hkv)
    simp only [InferMapping]
    split
    · rename_i hhas
      rw [ih h hnd2.2 hkind2]
      simp [List.filterMap_cons, hhas]
    · rename_i hhas
      split
      · rename_i hnil
        have hnull : val = Value.null := (Value.isNil_iff val).1 hnil
        rw [ih h hnd2.2 hkind2]
        simp [List.filterMap_cons, hhas, hnull, Value.kind]
      · rename_i hnil
        have hsome : val.kind.isSome = true := by
          rcases hkind (key, val) (by simp) with h1 | h1
          · exact absurd ((Value.isNil_iff val).2 h1) hnil
          · exact h1
        obtain ⟨k, hk⟩ := Option.isSome_iff_exists.1 hsome
        have hnone : Map.get? (h p).properties key = none :=
          (hasProp_eq_false_iff h p key).1 (by simpa using hhas)
        rw [ih _ hnd2.2 hkind2, setProp, SetProperty_properties,
          Map.set_eq_append _ _ _ hnone, Value.propType_of_kind hk]
        have hsame : ∀ kv ∈ rec,
            hasProp (SetProperty h p key (PropRef.fresh k.tag)) p kv.1 = hasProp h p kv.1 := by
          intro kv hkv
          have hne : key ≠ kv.1 := fun e => hnd2.1 (e ▸ List.mem_map_of_mem Prod.fst hkv)
          simp [hasProp, SetProperty_properties, Map.get?_set_ne _ _ hne]
        have hfm : rec.filterMap (fun kv =>
              if hasProp (SetProperty h p key (PropRef.fresh k.tag)) p kv.1 then none
              else kv.2.kind.map (fun k => (kv.1, PropRef.fresh k.tag)))
            = rec.filterMap (fun kv =>
              if hasProp h p kv.1 then none
              else kv.2.kind.map (fun k => (kv.1, PropRef.fresh k.tag))) := by
          apply List.filterMap_congr
          intro kv hkv
          rw [hsame kv hkv]
        rw [hfm]
        simp [List.filterMap_cons, hhas, hk]

theorem InferMapping_registers (h : Store) (p : Path) (rec : Record) (hnd : Map.Nodup rec)
    {key : String} {v : Value} (hmem : (key, v) ∈ rec) (hnil : v.isNil = false)
    (hnone : Map.get? (h p).properties key = none) :
    Map.get? (InferMapping h p rec p).properties key = some (PropRef.fresh (propType v)) := by
  induction rec generalizing h with
  | nil => cases hmem
  | cons kv rec ih =>
    obtain ⟨k, val⟩ := kv
    have hnd2 : k ∉ Map.keys rec ∧ Map.Nodup rec := by
      simpa [Map.Nodup, Map.keys] using hnd
    rcases List.mem_cons.1 hmem with heq | htl
    · cases heq
      have hhas : hasProp h p key = false := (hasProp_eq_false_iff h p key).2 hnone
      simp only [InferMapping, hhas, hnil]
      apply InferMapping_keeps
      rw [setProp, SetProperty_properties, Map.get?_set_self]
    · have hne : k ≠ key := fun e => hnd2.1 (e ▸ List.mem_map_of_mem Prod.fst htl)
      simp only [InferMapping]
      split
      · exact ih h hnd2.2 htl hnone
      · split
        · exact ih h hnd2.2 htl hnone
        · apply ih _ hnd2.2 htl
          rw [setProp, SetProperty_properties, Map.get?_set_ne _ _ hne]
          exact hnone

/-- C4: on a record whose values are each nil or of a recognised kind,
`InferMapping` appends to the properties of the node exactly one entry for each
field that is not nil and not yet registered, in the order of the visit, and
nothing else: such a field gets the type tag of its kind, a field whose value
is nil gets no entry, and the entries registered before stay as they are. -/
theorem InferMapping_recognised_kinds (h : Store) (p : Path) (rec : Record)
    (hnd : Map.Nodup rec)
    (hkind : ∀ kv ∈ rec, kv.2.isNil = true ∨ kv.2.kind.isSome = true) :
    (InferMapping h p rec p).properties =
        (h p).properties ++ rec.filterMap (fun kv =>
          if hasProp h p kv.1 then none
          else kv.2.kind.map (fun k => (kv.1, PropRef.fresh k.tag)))
      ∧ (∀ key v k, (key, v) ∈ rec → v.kind = some k → hasProp h p key = false →
          Map.get? (InferMapping h p rec p).properties key = some (PropRef.fresh k.tag))
      ∧ (∀ key, (key, Value.null) ∈ rec → hasProp h p key = false →
          Map.get? (InferMapping h p rec p).properties key = none)
      ∧ (∀ key e, Map.get? (h p).properties key = some e →
          Map.get? (InferMapping h p rec p).properties key = some e) := by
  have hkind2 : ∀ kv ∈ rec, kv.2 = Value.null ∨ kv.2.kind.isSome = true := by
    intro kv hkv
    rcases hkind kv hkv with h1 | h1
    · exact Or.inl ((Value.isNil_iff kv.2).1 h1)
    · exact Or.inr h1
  refine ⟨InferMapping_properties h p rec hnd hkind2, ?_, ?_, ?_⟩
  · intro key v k hmem hk hhas
    have hnil : v.isNil = false := by
      cases v <;> simp [Value.kind] at hk <;> rfl
    rw [InferMapping_registers h p rec hnd hmem hnil ((hasProp_eq_false_iff h p key).1 hhas),
      Value.propType_of_kind hk]
  · intro key hmem hhas
    cases hres : Map.get? (InferMapping h p rec p).properties key with
    | none => rfl
    | some e =>
      obtain ⟨v, hv, hvnil, _⟩ :=
        InferMapping_new h p rec ((hasProp_eq_false_iff h p key).1 hhas) hres
      have h1 := Map.get?_of_mem hnd hv
      have h2 := Map.get?_of_mem hnd hmem
      rw [h1] at h2
      cases h2
      simp [Value.isNil] at hvnil
  · intro key e hreg
    exact InferMapping_keeps h p rec hreg

theorem InferMapping_recognised_kinds_witness :
    Map.Nodup sampleRow
      ∧ (∀ kv ∈ sampleRow, kv.2.isNil = true ∨ kv.2.kind.isSome = true)
      ∧ (InferMapping sampleStore [] sampleRow []).properties =
        [("id", PropRef.fresh "long"), ("name", PropRef.fresh "string"),
          ("seen", PropRef.fresh "date")]
      ∧ Map.get? (InferMapping sampleStore [] sampleRow []).properties "name"
          = some (PropRef.fresh "string")
      ∧ Map.get? (InferMapping sampleStore [] sampleRow []).properties "note" = none :=
  ⟨by decide, by decide,
    (InferMapping_recognised_kinds sampleStore [] sampleRow (by decide) (by decide)).1,
    (InferMapping_recognised_kinds sampleStore [] sampleRow (by decide) (by decide)).2.1
      "name" (Value.string "Ann") Kind.text (by simp [sampleRow]) rfl rfl,
    (InferMapping_recognised_kinds sampleStore [] sampleRow (by decide) (by decide)).2.2.1
      "note" (by simp [sampleRow]) rfl⟩

/-! ## The interleaving model against `InferMapping` -/

theorem interleave_done (p : Path) (n : Nat) (h : Store) (second : InferWorker) :
    interleave p (List.replicate n true) ⟨h, ⟨[], none⟩, second⟩ = ⟨h, ⟨[], none⟩, second⟩ := by
  induction n with
  | zero => rfl
  | succ n ih => simpa [List.replicate_succ, interleave, InferWorker.step] using ih

/-- A worker that takes all the steps alone does what `InferMapping` does. -/
theorem interleave_alone (p : Path) (rec : Record) (h : Store) (second : InferWorker) (n : Nat)
    (hn : 2 * rec.length ≤ n) :
    interleave p (List.replicate n true) ⟨h, ⟨rec, none⟩, second⟩
      = ⟨InferMapping h p rec, ⟨[], none⟩, second⟩ := by
  induction rec generalizing h n with
  | nil => simpa [InferMapping] using interleave_done p n h second
  | cons kv rec ih =>
    obtain ⟨key, val⟩ := kv
    obtain ⟨m, rfl⟩ : ∃ m, n = m + 2 := ⟨n - 2, by simp at hn; omega⟩
    have hm : 2 * rec.length ≤ m := by simp at hn; omega
    by_cases hhas : hasProp h p key = true
    · simp only [List.replicate_succ, interleave, InferWorker.step, hhas, if_true, InferMapping]
      have := ih h (m + 1) (by omega)
      simpa [List.replicate_succ] using this
    · by_cases hnil : val.isNil = true
      · simp only [List.replicate_succ, interleave, InferWorker.step, hhas, hnil, if_true,
          InferMapping]
        have := ih h (m + 1) (by omega)
        simpa [List.replicate_succ] using this
      · simp only [List.replicate_succ, interleave, InferWorker.step, hhas, hnil, InferMapping]
        exact ih (setProp h p key val) m hm

/-- C6: a field whose value is not nil and of none of the recognised kinds is
not skipped: on the row `blobRow`, `InferMapping` registers the field with a
mapping whose type is empty, and a later row that holds the field as a text no
longer sets its type. -/
theorem InferMapping_unknown_registered :
    (blobRow.all fun kv => !kv.2.isNil && kv.2.kind.isNone) = true
      ∧ hasProp sampleStore [] "payload" = false
      ∧ Map.get? (InferMapping sampleStore [] blobRow []).properties "payload"
          = some (PropRef.fresh "")
      ∧ typeTag (InferMapping (InferMapping sampleStore [] blobRow) []
          [("payload", Value.string "text")]) [] "payload" = some "" := by
  decide

/-- C7: `Validate` returns the error that a key is required to include nested
objects on a node without a key whose map of nested schemas is not nil but
empty, although no node of that tree has a nested child: in the guard
`s.Nested != nil || len(s.Nested) > 0` the test for a child is dead behind the
`||`. -/
theorem Validate_rejects_empty_nested :
    (Validate emptyNestedSchema [] sampleStore).2
        = some "A key is required to included nested objects."
      ∧ ¬ Schema.nestedWithoutKey emptyNestedSchema := by
  refine ⟨by decide, ?_⟩
  rintro ⟨p, n, hnode, hchildren, _⟩
  cases p with
  | nil =>
    simp only [Schema.nodeAt, Option.some.injEq] at hnode
    subst hnode
    exact hchildren rfl
  | cons name rest =>
    simp [Schema.nodeAt, emptyNestedSchema, Schema.children, Schema.nested, Map.get?] at hnode

/-- C9: a record whose encoding fails is not without trace in the output: its
action header has been written before the record is encoded, so the output
holds a header that no record follows, where the specified output holds
nothing for that record. -/
theorem DataWriter_orphan_header :
    sampleEncode (Doc.record nanRow) = none
      ∧ DataWriter sampleEncode "people" "person" [nanRow, []]
          = ["create people/person", "create people/person", "record of 0 fields"]
      ∧ specDataOutput sampleEncode "people" "person" [nanRow, []]
          = ["create people/person", "record of 0 fields"] := by
  decide

/-- C10: the check of `hasProp` and the write of `SetProperty` are two
sections under the lock, and the other worker can write in between: after the
steps first, second, first the field `code` is registered as a string by the
first worker, and the next step of the second worker overwrites it with long. -/
theorem InferMapping_race_overwrites :
    typeTag (interleave [] [true, false, true] raceStart).store [] "code" = some "string"
      ∧ typeTag (interleave [] [true, false, true, false] raceStart).store [] "code"
          = some "long" := by
  decide

/-! ## The retry loop -/

theorem two_pow_63 : (2 : Int) ^ 63 = 9223372036854775808 := by norm_num

theorem wrapInt64_id {x : Int} (hlo : 0 ≤ x) (hhi : x < 9223372036854775808) :
    wrapInt64 x = x := by
  unfold wrapInt64
  have e64 : (2 : Int) ^ 64 = 18446744073709551616 := by norm_num
  rw [two_pow_63, e64]
  omega

/-- After `n` failed attempts the loop, when every attempt before the
`(n + d)`-th fails and that one succeeds below the maximum, is left through
the `break`. -/
theorem retryLoop_built (maxRetries : Int) (dbAt : Nat → DB) (schema : Schema) (h : Store)
    (rec : Record) (hmax : maxRetries < 2 ^ 63) (d : Nat) :
    ∀ (n fuel : Nat), ((n + d : Nat) : Int) < maxRetries →
      (∀ j, j < n + d → attemptFails dbAt schema h rec j = true) →
      attemptFails dbAt schema h rec (n + d) = false → d < fuel →
      retryLoop maxRetries dbAt schema fuel (n : Int) n
          (attemptState dbAt schema h rec n).1 (attemptState dbAt schema h rec n).2
        = some (RetryExit.built (n + d) (attemptState dbAt schema h rec (n + d + 1)).1
            (attemptState dbAt schema h rec (n + d + 1)).2) := by
  rw [two_pow_63] at hmax
  induction d with
  | zero =>
    intro n fuel hlt _ hok hfuel
    obtain ⟨f, rfl⟩ : ∃ f, fuel = f + 1 := ⟨fuel - 1, by omega⟩
    have hne : ¬ ((n : Int) = maxRetries) := by
      simp only [Nat.add_zero] at hlt
      omega
    have herr : (Build (dbAt n) schema [] (attemptState dbAt schema h rec n).1
        (attemptState dbAt schema h rec n).2).err = none := by
      simpa [attemptFails] using hok
    simp only [retryLoop, hne, if_false, herr, Nat.add_zero, attemptState]
  | succ d ih =>
    intro n fuel hlt hfail hok hfuel
    obtain ⟨f, rfl⟩ : ∃ f, fuel = f + 1 := ⟨fuel - 1, by omega⟩
    have hne : ¬ ((n : Int) = maxRetries) := by
      push_cast at hlt
      omega
    have hf := hfail n (by omega)
    simp only [attemptFails] at hf
    obtain ⟨e, he⟩ := Option.isSome_iff_exists.1 hf
    have hwrap : wrapInt64 ((n : Int) + 1) = ((n + 1 : Nat) : Int) := by
      push_cast at hlt ⊢
      exact wrapInt64_id (by omega) (by omega)
    have hstep := ih (n + 1) f (by push_cast at hlt ⊢; omega)
      (fun j hj => hfail j (by omega)) ((show n + (d + 1) = n + 1 + d by omega) ▸ hok)
      (by omega)
    simp only [retryLoop, hne, if_false, he, hwrap]
    rw [show n + (d + 1) = n + 1 + d by omega]
    exact hstep

/-- After `n` failed attempts the loop, when every attempt below the maximum
fails, is left through `log.Fatalf`. -/
theorem retryLoop_fatal (dbAt : Nat → DB) (schema : Schema) (h : Store) (rec : Record)
    (m : Nat) (hmax : (m : Int) < 2 ^ 63) (d : Nat) :
    ∀ (n fuel : Nat), n + d = m →
      (∀ j, j < m → attemptFails dbAt schema h rec j = true) → d < fuel →
      retryLoop (m : Int) dbAt schema fuel (n : Int) n
          (attemptState dbAt schema h rec n).1 (attemptState dbAt schema h rec n).2
        = some (RetryExit.fatal (attemptState dbAt schema h rec m).1
            (attemptState dbAt schema h rec m).2) := by
  rw [two_pow_63] at hmax
  induction d with
  | zero =>
    intro n fuel hnm _ hfuel
    obtain ⟨f, rfl⟩ : ∃ f, fuel = f + 1 := ⟨fuel - 1, by omega⟩
    simp only [Nat.add_zero] at hnm
    subst hnm
    simp [retryLoop]
  | succ d ih =>
    intro n fuel hnm hfail hfuel
    obtain ⟨f, rfl⟩ : ∃ f, fuel = f + 1 := ⟨fuel - 1, by omega⟩
    have hne : ¬ ((n : Int) = (m : Int)) := by omega
    have hf := hfail n (by omega)
    simp only [attemptFails] at hf
    obtain ⟨e, he⟩ := Option.isSome_iff_exists.1 hf
    have hwrap : wrapInt64 ((n : Int) + 1) = ((n + 1 : Nat) : Int) := by
      push_cast
      exact wrapInt64_id (by omega) (by omega)
    have hstep := ih (n + 1) f (by omega) hfail (by omega)
    simp only [retryLoop, hne, if_false, he, hwrap]
    exact hstep

/-- C8: without cancellation, with a maximum in the range of a 64-bit `int`:
when the first `k` calls of `Build` for a task fail, `k` is below the maximum
and the next call succeeds, the worker leaves the retry loop within `k + 1`
iterations, the process goes on, and exactly one record (the one the call that
succeeded left behind) is sent on the output channel and exactly one sample on
the stats channel; when the first `maxRetries` calls fail, the loop ends in
`log.Fatalf` within `maxRetries + 1` iterations, the process is terminated and
nothing is sent. -/
theorem processTask_retry (maxRetries : Int) (dbAt : Nat → DB) (schema : Schema) (h : Store)
    (rec : Record) (k fuel : Nat) (hmax : maxRetries < 2 ^ 63)
    (hfail : ∀ j, j < k → attemptFails dbAt schema h rec j = true) (hfuel : k < fuel) :
    ((k : Int) < maxRetries → attemptFails dbAt schema h rec k = false →
        ∃ eff, processTask maxRetries dbAt schema fuel false h rec = some eff
          ∧ eff.exited = false
          ∧ eff.output = [(attemptState dbAt schema h rec (k + 1)).2]
          ∧ eff.stats = [k])
      ∧ ((k : Int) = maxRetries →
        ∃ eff, processTask maxRetries dbAt schema fuel false h rec = some eff
          ∧ eff.exited = true ∧ eff.output = [] ∧ eff.stats = []) := by
  constructor
  · intro hlt hok
    have hloop := retryLoop_built maxRetries dbAt schema h rec hmax k 0 fuel
      (by simpa using hlt) (by simpa using hfail) (by simpa using hok) hfuel
    simp only [Nat.zero_add, Nat.cast_zero, attemptState] at hloop
    refine ⟨⟨false, [(attemptState dbAt schema h rec (k + 1)).2], [k],
      (attemptState dbAt schema h rec (k + 1)).1⟩, ?_, rfl, rfl, rfl⟩
    simp only [processTask, hloop]
    rfl
  · intro heq
    subst heq
    have hloop := retryLoop_fatal dbAt schema h rec k hmax k 0 fuel (by simp) hfail hfuel
    simp only [Nat.cast_zero, attemptState] at hloop
    refine ⟨⟨true, [], [], (attemptState dbAt schema h rec k).1⟩, ?_, rfl, rfl, rfl⟩
    simp only [processTask, hloop]

theorem processTask_retry_witness :
    ((3 : Int) < 2 ^ 63)
      ∧ (∀ j, j < 2 → attemptFails flakyDB personSchema sampleStore personRow j = true)
      ∧ 2 < 5
      ∧ attemptFails flakyDB personSchema sampleStore personRow 2 = false
      ∧ (∃ eff, processTask 3 flakyDB personSchema 5 false sampleStore personRow = some eff
          ∧ eff.exited = false
          ∧ eff.output = [(attemptState flakyDB personSchema sampleStore personRow 3).2]
          ∧ eff.stats = [2])
      ∧ (∃ eff, processTask 2 flakyDB personSchema 5 false sampleStore personRow = some eff
          ∧ eff.exited = true ∧ eff.output = [] ∧ eff.stats = []) :=
  ⟨by decide, by decide, by decide, by decide,
    (processTask_retry 3 flakyDB personSchema sampleStore personRow 2 5 (by decide)
      (by decide) (by decide)).1 (by decide) (by decide),
    (processTask_retry 2 flakyDB personSchema sampleStore personRow 2 5 (by decide)
      (by decide) (by decide)).2 (by decide)⟩

/-! ## The record a build leaves behind -/

theorem Schema.mem_wf {t : String} {k e : List String} {q : String}
    {cs : List (String × Schema)} (hwf : Schema.wf (Schema.mk t k e q (some cs)) = true) :
    Map.Nodup cs ∧ ∀ name c, (name, c) ∈ cs → Schema.wf c = true := by
  simp only [Schema.wf, Bool.and_eq_true, decide_eq_true_eq] at hwf
  refine ⟨hwf.1, ?_⟩
  have hl := hwf.2
  clear hwf
  induction cs with
  | nil => intro name c hmem; cases hmem
  | cons hd tl ih =>
    obtain ⟨n1, c1⟩ := hd
    simp only [Schema.wfList, Bool.and_eq_true] at hl
    intro name c hmem
    rcases List.mem_cons.1 hmem with heq | htl
    · cases heq; exact hl.1
    · exact ih hl.2 name c htl

theorem Build_leaf (db : DB) (t : String) (k e : List String) (q : String) (p : Path)
    (h : Store) (rec : Record) :
    Build db (Schema.mk t k e q none) p h rec = finishBuild e p h rec := by
  simp only [Build]

theorem Build_node (db : DB) (t : String) (k e : List String) (q : String)
    (cs : List (String × Schema)) (p : Path) (h : Store) (rec : Record) :
    Build db (Schema.mk t k e q (some cs)) p h rec =
      match (buildNested db cs p (BuildParams rec k) h rec).err with
      | some err =>
        ⟨(buildNested db cs p (BuildParams rec k) h rec).store,
          (buildNested db cs p (BuildParams rec k) h rec).record, some err⟩
      | none =>
        finishBuild e p (buildNested db cs p (BuildParams rec k) h rec).store
          (buildNested db cs p (BuildParams rec k) h rec).record := by
  simp only [Build]

theorem buildNested_nil (db : DB) (p : Path) (params : Params) (h : Store) (rec : Record) :
    buildNested db [] p params h rec = ⟨h, rec, none⟩ := by
  simp only [buildNested]

theorem buildNested_cons (db : DB) (key : String) (nested : Schema)
    (rest : List (String × Schema)) (p : Path) (params : Params) (h : Store) (rec : Record) :
    buildNested db ((key, nested) :: rest) p params h rec =
      match FetchAll db nested.sql params with
      | .error e => ⟨h, rec, some e⟩
      | .ok children =>
        match (buildEach (Build db nested (p ++ [key])) h children).2.2 with
        | some e =>
          ⟨(buildEach (Build db nested (p ++ [key])) h children).1,
            Map.set rec key
              (Value.records (buildEach (Build db nested (p ++ [key])) h children).2.1),
            some e⟩
        | none =>
          buildNested db rest p params
            (SetProperty (buildEach (Build db nested (p ++ [key])) h children).1 p key
              (PropRef.node (p ++ [key])))
            (Map.set rec key
              (Value.records (buildEach (Build db nested (p ++ [key])) h children).2.1)) := by
  simp only [buildNested]

/-! ## Induction over the schema tree -/

/-- A property holds of every schema when it holds of a node whose nested
schemas all have it. -/
theorem Schema.induct {P : Schema → Prop}
    (step : ∀ t k e q n, (∀ name c, (name, c) ∈ n.getD [] → P c) → P (Schema.mk t k e q n)) :
    ∀ s, P s := by
  intro s
  refine @Schema.rec P
    (fun o => ∀ name c, (name, c) ∈ o.getD [] → P c)
    (fun l => ∀ name c, (name, c) ∈ l → P c)
    (fun pr => P pr.2) ?_ ?_ ?_ ?_ ?_ ?_ s
  · intro t k e q n ih; exact step t k e q n ih
  · intro name c h; simp at h
  · intro l ih name c h; exact ih name c (by simpa using h)
  · intro name c h; simp at h
  · intro hd tl ihd itl name c h
    rcases List.mem_cons.1 h with h | h
    · subst h; exact ihd
    · exact itl name c h
  · intro name c ih; exact ih


/-- The record and the error of a loop over the children do not depend on the
mappings when those of `build` do not. -/
theorem buildEach_indep (b b2 : Store → Record → BuildResult)
    (hb : ∀ h h2 row, (b h row).record = (b2 h2 row).record ∧ (b h row).err = (b2 h2 row).err)
    (rows : List Record) :
    ∀ h h2, (buildEach b h rows).2 = (buildEach b2 h2 rows).2 := by
  induction rows with
  | nil => intro h h2; rfl
  | cons row rows ih =>
    intro h h2
    have hrow := hb h h2 row
    simp only [buildEach]
    rw [← hrow.2]
    cases herr : (b h row).err with
    | some e => simp only [hrow.1]
    | none =>
      have htl := ih (b h row).store (b2 h2 row).store
      simp only [hrow.1]
      rw [Prod.ext_iff] at htl
      exact Prod.ext (by simp [htl.1]) htl.2

/-- The record a build leaves behind and the error it returns depend neither
on the mappings nor on the path of the node. -/
theorem Build_indep (db : DB) (s : Schema) :
    ∀ p h p2 h2 rec, (Build db s p h rec).record = (Build db s p2 h2 rec).record
      ∧ (Build db s p h rec).err = (Build db s p2 h2 rec).err := by
  induction s using Schema.induct with
  | step t k e q n ih =>
    intro p h p2 h2 rec
    cases n with
    | none => simp [Build_leaf, finishBuild]
    | some cs =>
      have hloop : ∀ (l : List (String × Schema)), (∀ name c, (name, c) ∈ l → (name, c) ∈ cs) →
          ∀ params h h2 rec,
            (buildNested db l p params h rec).record = (buildNested db l p2 params h2 rec).record
            ∧ (buildNested db l p params h rec).err = (buildNested db l p2 params h2 rec).err := by
        intro l
        induction l with
        | nil => intro _ params h h2 rec; simp [buildNested_nil]
        | cons hd tl ihl =>
          obtain ⟨name, c⟩ := hd
          intro hsub params h h2 rec
          have hc := ih name c (by simpa using hsub name c (by simp))
          have heach := fun rows => buildEach_indep (Build db c (p ++ [name]))
            (Build db c (p2 ++ [name])) (fun h h2 row => hc _ h _ h2 row) rows h h2
          simp only [buildNested_cons]
          cases hfetch : FetchAll db c.sql params with
          | error err => simp
          | ok rows =>
            have he := heach rows
            rw [Prod.ext_iff] at he
            simp only
            rw [← he.2, ← he.1]
            cases (buildEach (Build db c (p ++ [name])) h rows).2.2 with
            | some err => simp
            | none =>
              exact ihl (fun n2 c2 hm => hsub n2 c2 (List.mem_cons_of_mem _ hm)) params _ _ _
      have hl := hloop cs (fun _ _ hm => hm) (BuildParams rec k) h h2 rec
      simp only [Build_node]
      rw [← hl.2, ← hl.1]
      cases (buildNested db cs p (BuildParams rec k) h rec).err with
      | some err => simp
      | none => simp [finishBuild]

/-- A loop over the children that returns no error has built every child, and
leaves the built children behind in the order of the rows. -/
theorem buildEach_ok (b : Store → Record → BuildResult)
    (hb : ∀ h h2 row, (b h row).record = (b h2 row).record ∧ (b h row).err = (b h2 row).err)
    (h0 : Store) (rows : List Record) :
    ∀ h, (buildEach b h rows).2.2 = none →
      (∀ row ∈ rows, (b h0 row).err = none)
        ∧ (buildEach b h rows).2.1 = rows.map (fun row => (b h0 row).record) := by
  induction rows with
  | nil => intro h _; simp [buildEach]
  | cons row rows ih =>
    intro h hok
    simp only [buildEach] at hok ⊢
    cases herr : (b h row).err with
    | some e => simp [herr] at hok
    | none =>
      simp only [herr] at hok ⊢
      have htl := ih _ hok
      refine ⟨?_, ?_⟩
      · intro r hr
        rcases List.mem_cons.1 hr with heq | hin
        · subst heq; rw [← (hb h h0 r).2]; exact herr
        · exact htl.1 r hin
      · simp [htl.2, (hb h h0 row).1]

/-- A loop over the nested schemas that returns no error has fetched the rows
of every nested schema with the given parameters, built each of them, and left
the built rows in the record under the name of the nested schema; the other
fields of the record are as before. -/
theorem buildNested_ok (db : DB) (p : Path) (params : Params) (h0 : Store) (p0 : Path)
    (l : List (String × Schema)) (hnd : Map.Nodup l) :
    ∀ h rec, (buildNested db l p params h rec).err = none →
      (∀ name c, (name, c) ∈ l → ∃ rows, FetchAll db c.sql params = Except.ok rows
          ∧ (∀ row ∈ rows, (Build db c p0 h0 row).err = none)
          ∧ Map.get? (buildNested db l p params h rec).record name
            = some (Value.records (rows.map (fun row => (Build db c p0 h0 row).record))))
        ∧ (∀ key, key ∉ Map.keys l →
          Map.get? (buildNested db l p params h rec).record key = Map.get? rec key) := by
  induction l with
  | nil =>
    intro h rec _
    exact ⟨fun name c hm => (by cases hm), fun key _ => (by simp [buildNested_nil])⟩
  | cons hd tl ih =>
    obtain ⟨name, c⟩ := hd
    have hnd2 : name ∉ Map.keys tl ∧ Map.Nodup tl := by
      simpa [Map.Nodup, Map.keys] using hnd
    intro h rec hok
    simp only [buildNested_cons] at hok ⊢
    cases hfetch : FetchAll db c.sql params with
    | error err => simp [hfetch] at hok
    | ok rows =>
      simp only [hfetch] at hok ⊢
      cases heach : (buildEach (Build db c (p ++ [name])) h rows).2.2 with
      | some err => simp [heach] at hok
      | none =>
        simp only [heach] at hok ⊢
        have hbuilt := buildEach_ok (Build db c (p ++ [name]))
          (fun h h2 row => Build_indep db c _ h _ h2 row) h0 rows h heach
        have hrows : (buildEach (Build db c (p ++ [name])) h rows).2.1
            = rows.map (fun row => (Build db c p0 h0 row).record) := by
          rw [hbuilt.2]
          exact List.map_congr_left (fun row _ => (Build_indep db c _ h0 p0 h0 row).1)
        have htl := ih hnd2.2 _ _ hok
        refine ⟨?_, ?_⟩
        · intro n2 c2 hm
          rcases List.mem_cons.1 hm with heq | hin
          · cases heq
            refine ⟨rows, hfetch, ?_, ?_⟩
            · intro row hrow
              rw [← (Build_indep db c (p ++ [name]) h0 p0 h0 row).2]
              exact hbuilt.1 row hrow
            · rw [htl.2 name hnd2.1, Map.get?_set_self, hrows]
          · exact htl.1 n2 c2 hin
        · intro key hkey
          have hk : key ≠ name ∧ key ∉ Map.keys tl := by
            simpa [Map.keys] using hkey
          rw [htl.2 key hk.2, Map.get?_set_ne _ _ (Ne.symm hk.1)]

/-! ## The parameters of the nested queries -/

theorem BuildParams_fold (rec : Record) (keys : List String) :
    ∀ acc : Params, Map.Nodup acc →
      Map.Nodup (keys.foldl (fun params key => Map.set params key (Record.index rec key)) acc)
        ∧ ∀ key, Map.get?
            (keys.foldl (fun params key => Map.set params key (Record.index rec key)) acc) key
          = if key ∈ keys then some (Record.index rec key) else Map.get? acc key := by
  induction keys with
  | nil => intro acc hacc; simp [hacc]
  | cons k keys ih =>
    intro acc hacc
    have hstep := ih (Map.set acc k (Record.index rec k))
      (Map.nodup_set acc k (Record.index rec k) hacc)
    simp only [List.foldl_cons]
    refine ⟨hstep.1, ?_⟩
    intro key
    rw [hstep.2 key]
    by_cases hin : key ∈ keys
    · simp [hin]
    · by_cases hk : k = key
      · subst hk
        simp [hin, Map.get?_set_self]
      · have hk2 : ¬ key = k := fun e => hk e.symm
        simp [hin, hk2, Map.get?_set_ne _ _ hk]

/-- The parameter set has one entry for each key field, which holds the value
of the record for the field, nil when the record lacks it, and no other entry. -/
theorem BuildParams_spec (rec : Record) (keys : List String) :
    Map.Nodup (BuildParams rec keys)
      ∧ (∀ key, key ∈ Map.keys (BuildParams rec keys) ↔ key ∈ keys)
      ∧ (∀ key ∈ keys, Map.get? (BuildParams rec keys) key
          = some ((Map.get? rec key).getD Value.null)) := by
  have hfold := BuildParams_fold rec keys [] (by simp [Map.Nodup, Map.keys])
  refine ⟨hfold.1, ?_, ?_⟩
  · intro key
    have hget := hfold.2 key
    by_cases hin : key ∈ keys
    · simp only [hin, if_true] at hget
      exact ⟨fun _ => hin, fun _ => Map.mem_keys_of_get? hget⟩
    · simp only [hin, if_false, Map.get?] at hget
      exact ⟨fun hk => absurd hk ((Map.get?_eq_none_iff _ _).1 hget), fun hk => absurd hk hin⟩
  · intro key hin
    have hget := hfold.2 key
    simp only [hin, if_true] at hget
    exact hget

/-! ## Exclusion -/

theorem noExcludedNested_of (l : List (String × Schema)) (rec : Record)
    (hrows : ∀ name c, (name, c) ∈ l → ∀ rows, Map.get? rec name = some (Value.records rows) →
      ∀ row ∈ rows, noExcluded c row = true) :
    noExcludedNested l rec = true := by
  induction l with
  | nil => simp [noExcludedNested]
  | cons hd tl ih =>
    obtain ⟨name, c⟩ := hd
    simp only [noExcludedNested, Bool.and_eq_true]
    refine ⟨?_, ih (fun n2 c2 hm => hrows n2 c2 (List.mem_cons_of_mem _ hm))⟩
    split
    · rename_i rows hget
      rw [List.all_eq_true]
      exact hrows name c (by simp) rows hget
    · rfl

theorem noExcluded_of (t : String) (k e : List String) (q : String)
    (n : Option (List (String × Schema))) (rec : Record)
    (hfields : ∀ f ∈ e, Map.get? rec f = none)
    (hrows : ∀ name c, (name, c) ∈ n.getD [] → ∀ rows,
      Map.get? rec name = some (Value.records rows) → ∀ row ∈ rows, noExcluded c row = true) :
    noExcluded (Schema.mk t k e q n) rec = true := by
  have hall : (e.all fun f => (Map.get? rec f).isNone) = true := by
    rw [List.all_eq_true]
    intro f hf
    simp [hfields f hf]
  cases n with
  | none => simpa [noExcluded] using hall
  | some cs =>
    simp only [noExcluded, Bool.and_eq_true]
    exact ⟨hall, noExcludedNested_of cs rec (by simpa using hrows)⟩

theorem Build_excluded_fields (db : DB) (s : Schema) (p : Path) (h : Store) (rec : Record)
    (hok : (Build db s p h rec).err = none) :
    ∀ f ∈ s.exclude, Map.get? (Build db s p h rec).record f = none := by
  obtain ⟨t, k, e, q, n⟩ := s
  intro f hf
  cases n with
  | none =>
    simp only [Build_leaf, finishBuild]
    exact Map.get?_deleteAll_mem e rec hf
  | some cs =>
    simp only [Build_node] at hok ⊢
    cases hloop : (buildNested db cs p (BuildParams rec k) h rec).err with
    | some err => simp [hloop] at hok
    | none =>
      simp only [finishBuild]
      exact Map.get?_deleteAll_mem e _ hf

/-- C2: when `Build` succeeds on a schema whose nested maps are Go maps, the
record it leaves behind has no field named in the exclusion set of the schema,
and, at every depth, no record in a list held under the name of a nested
schema has a field named in the exclusion set of that nested schema. -/
theorem Build_removes_excluded (db : DB) (s : Schema) (hwf : Schema.wf s = true) (p : Path)
    (h : Store) (rec : Record) (hok : (Build db s p h rec).err = none) :
    (∀ f ∈ s.exclude, Map.get? (Build db s p h rec).record f = none)
      ∧ noExcluded s (Build db s p h rec).record = true := by
  refine ⟨Build_excluded_fields db s p h rec hok, ?_⟩
  revert hwf p h rec
  induction s using Schema.induct with
  | step t k e q n ih =>
    intro hwf p h rec hok
    apply noExcluded_of
    · exact Build_excluded_fields db _ p h rec hok
    · cases n with
      | none => intro name c hm; simp at hm
      | some cs =>
        intro name c hm rows hget row hrow
        have hm2 : (name, c) ∈ cs := by simpa using hm
        obtain ⟨hnd, hcwf⟩ := Schema.mem_wf hwf
        simp only [Build_node] at hok hget
        cases hloop : (buildNested db cs p (BuildParams rec k) h rec).err with
        | some err => simp [hloop] at hok
        | none =>
          simp only [hloop, finishBuild] at hget
          by_cases hex : name ∈ e
          · rw [Map.get?_deleteAll_mem e _ hex] at hget
            cases hget
          · rw [Map.get?_deleteAll_not_mem e _ hex] at hget
            obtain ⟨fetched, _, hbuilt, hattached⟩ :=
              (buildNested_ok db p (BuildParams rec k) h (p ++ [name]) cs hnd h rec hloop).1
                name c hm2
            rw [hattached] at hget
            simp only [Option.some.injEq, Value.records.injEq] at hget
            subst hget
            obtain ⟨src, hsrc, rfl⟩ := List.mem_map.1 hrow
            exact ih name c hm (hcwf name c hm2) (p ++ [name]) h src (hbuilt src hsrc)

theorem Build_removes_excluded_witness :
    Schema.wf personSchema = true
      ∧ (Build sampleDB personSchema [] sampleStore personRow).err = none
      ∧ (∀ f ∈ personSchema.exclude,
          Map.get? (Build sampleDB personSchema [] sampleStore personRow).record f = none)
      ∧ noExcluded personSchema (Build sampleDB personSchema [] sampleStore personRow).record
          = true
      ∧ noExcluded personSchema personRow = false :=
  ⟨by decide, by decide,
    (Build_removes_excluded sampleDB personSchema (by decide) [] sampleStore personRow
      (by decide)).1,
    (Build_removes_excluded sampleDB personSchema (by decide) [] sampleStore personRow
      (by decide)).2, by decide⟩

/-! ## Nested children -/

/-- C1: when `Build` succeeds on a record, the parameter set of the nested
queries is `BuildParams` of the record and the key fields of the schema, with
one entry per key field that holds the value of the record for the field (nil
when the record lacks it); the query of every nested schema has been executed
with that set and has returned rows, each of which has been built with the
nested schema without error; and for a nested schema whose name is not in the
exclusion set the record holds under that name the list of the built rows, in
the order the query returned them. -/
theorem Build_attaches_children (db : DB) (s : Schema) (p : Path) (h : Store) (rec : Record)
    (hnd : Map.Nodup s.children) (hok : (Build db s p h rec).err = none) :
    (Map.Nodup (BuildParams rec s.key)
        ∧ (∀ key, key ∈ Map.keys (BuildParams rec s.key) ↔ key ∈ s.key)
        ∧ (∀ key ∈ s.key, Map.get? (BuildParams rec s.key) key
            = some ((Map.get? rec key).getD Value.null)))
      ∧ ∀ name c, (name, c) ∈ s.children →
          ∃ rows, FetchAll db c.sql (BuildParams rec s.key) = Except.ok rows
            ∧ (∀ row ∈ rows, ∀ p2 h2, (Build db c p2 h2 row).err = none)
            ∧ (name ∉ s.exclude → ∀ p2 h2,
                Map.get? (Build db s p h rec).record name
                  = some (Value.records (rows.map fun row => (Build db c p2 h2 row).record))) := by
  refine ⟨BuildParams_spec rec s.key, ?_⟩
  obtain ⟨t, k, e, q, n⟩ := s
  cases n with
  | none => intro name c hm; simp [Schema.children, Schema.nested] at hm
  | some cs =>
    intro name c hm
    have hm2 : (name, c) ∈ cs := by simpa [Schema.children, Schema.nested] using hm
    have hnd2 : Map.Nodup cs := by simpa [Schema.children, Schema.nested] using hnd
    simp only [Build_node] at hok ⊢
    cases hloop : (buildNested db cs p (BuildParams rec k) h rec).err with
    | some err => simp [hloop] at hok
    | none =>
      obtain ⟨rows, hfetch, hbuilt, _⟩ :=
        (buildNested_ok db p (BuildParams rec k) h p cs hnd2 h rec hloop).1 name c hm2
      refine ⟨rows, hfetch, ?_, ?_⟩
      · intro row hrow p2 h2
        rw [(Build_indep db c p2 h2 p h row).2]
        exact hbuilt row hrow
      · intro hex p2 h2
        obtain ⟨rows2, hfetch2, _, hattached⟩ :=
          (buildNested_ok db p (BuildParams rec k) h2 p2 cs hnd2 h rec hloop).1 name c hm2
        have hsame : rows2 = rows := by
          have := hfetch2.symm.trans hfetch
          simpa using this
        subst hsame
        simp only [finishBuild, Schema.exclude] at hex ⊢
        rw [Map.get?_deleteAll_not_mem e _ hex, hattached]

theorem Build_attaches_children_witness :
    Map.Nodup personSchema.children
      ∧ (Build sampleDB personSchema [] sampleStore personRow).err = none
      ∧ Map.get? (BuildParams personRow personSchema.key) "id" = some (Value.int64 7)
      ∧ ∃ rows, FetchAll sampleDB visitSchema.sql
            (BuildParams personRow personSchema.key) = Except.ok rows
          ∧ (∀ row ∈ rows, ∀ p2 h2,
              (Build sampleDB visitSchema p2 h2 row).err = none)
          ∧ ("visits" ∉ personSchema.exclude → ∀ p2 h2,
              Map.get? (Build sampleDB personSchema [] sampleStore personRow).record "visits"
                = some (Value.records (rows.map fun row =>
                    (Build sampleDB visitSchema p2 h2 row).record))) :=
  ⟨by decide, by decide,
    (Build_attaches_children sampleDB personSchema [] sampleStore personRow (by decide)
      (by decide)).1.2.2 "id" (by decide),
    (Build_attaches_children sampleDB personSchema [] sampleStore personRow (by decide)
      (by decide)).2 "visits" visitSchema
      (by simp [personSchema, Schema.children, Schema.nested])⟩

/-- The record of the witness, evaluated. -/
theorem Build_sample_record :
    Map.get? (Build sampleDB personSchema [] sampleStore personRow).record "visits"
        = some (Value.records [[("day", Value.time 86400)], [("day", Value.null)]])
      ∧ Map.get? (Build sampleDB personSchema [] sampleStore personRow).record "ssn" = none
      ∧ Map.get? (Build sampleDB personSchema [] sampleStore personRow).record "name"
        = some (Value.string "Ann") := by
  refine ⟨rfl, rfl, rfl⟩

/-! ## The mappings a build leaves behind -/

theorem Store.Grows.refl (h : Store) : Store.Grows h h :=
  fun _ => ⟨rfl, fun _ _ hreg => hreg⟩

theorem Store.Grows.trans {h1 h2 h3 : Store} (h12 : Store.Grows h1 h2)
    (h23 : Store.Grows h2 h3) : Store.Grows h1 h3 :=
  fun q => ⟨((h23 q).1).trans (h12 q).1, fun key e hreg => (h23 q).2 key e ((h12 q).2 key e hreg)⟩

theorem Store.Grows_SetProperty (h : Store) (p : Path) (key : String) (prop : PropRef)
    (hfree : Map.get? (h p).properties key = none ∨ Map.get? (h p).properties key = some prop) :
    Store.Grows h (SetProperty h p key prop) := by
  intro q
  refine ⟨SetProperty_type h p q key prop, ?_⟩
  intro k e hreg
  by_cases hq : q = p
  · subst hq
    rw [SetProperty_properties]
    by_cases hk : key = k
    · subst hk
      rcases hfree with hnone | hsame
      · rw [hnone] at hreg; cases hreg
      · rw [hsame] at hreg
        rw [Map.get?_set_self]
        exact hreg
    · rw [Map.get?_set_ne _ _ hk]
      exact hreg
  · rw [SetProperty_other h key prop hq]
    exact hreg

theorem Store.Grows_InferMapping (h : Store) (p : Path) (rec : Record) :
    Store.Grows h (InferMapping h p rec) := by
  intro q
  refine ⟨InferMapping_type h p q rec, ?_⟩
  intro k e hreg
  by_cases hq : q = p
  · subst hq
    exact InferMapping_keeps h q rec hreg
  · rw [InferMapping_other h rec hq]
    exact hreg

theorem Path.snoc_not_below (p : Path) (name : String) : ¬ (p ++ [name]) <+: p := by
  intro hpre
  have := hpre.length_le
  simp at this

theorem Path.snoc_not_below_of {p q : Path} (name : String) (hq : ¬ p <+: q) :
    ¬ (p ++ [name]) <+: q :=
  fun hpre => hq ((List.prefix_append p [name]).trans hpre)

theorem Path.ne_of_not_below {p q : Path} (hq : ¬ p <+: q) : q ≠ p := by
  intro heq
  subst heq
  exact hq (List.prefix_refl _)

theorem buildEach_frame (b : Store → Record → BuildResult) (pc : Path)
    (hb : ∀ h row q, ¬ pc <+: q → (b h row).store q = h q) (rows : List Record) :
    ∀ h q, ¬ pc <+: q → (buildEach b h rows).1 q = h q := by
  induction rows with
  | nil => intro h q _; rfl
  | cons row rows ih =>
    intro h q hq
    simp only [buildEach]
    cases (b h row).err with
    | some e => exact hb h row q hq
    | none => exact (ih _ q hq).trans (hb h row q hq)

/-- A build of the node at `p` writes to no mapping outside the tree under `p`. -/
theorem Build_frame (db : DB) (s : Schema) :
    ∀ p h rec q, ¬ p <+: q → (Build db s p h rec).store q = h q := by
  induction s using Schema.induct with
  | step t k e x n ih =>
    intro p h rec q hq
    have hqp : q ≠ p := Path.ne_of_not_below hq
    cases n with
    | none =>
      simp only [Build_leaf, finishBuild]
      exact InferMapping_other h _ hqp
    | some cs =>
      have hloop : ∀ (l : List (String × Schema)), (∀ name c, (name, c) ∈ l → (name, c) ∈ cs) →
          ∀ params h rec, (buildNested db l p params h rec).store q = h q := by
        intro l
        induction l with
        | nil => intro _ params h rec; simp [buildNested_nil]
        | cons hd tl ihl =>
          obtain ⟨name, c⟩ := hd
          intro hsub params h rec
          have hc := ih name c (by simpa using hsub name c (by simp))
          have heach := fun rows => buildEach_frame (Build db c (p ++ [name])) (p ++ [name])
            (fun h row q hq => hc _ h row q hq) rows h q (Path.snoc_not_below_of name hq)
          simp only [buildNested_cons]
          cases hfetch : FetchAll db c.sql params with
          | error err => rfl
          | ok rows =>
            simp only
            cases (buildEach (Build db c (p ++ [name])) h rows).2.2 with
            | some err => exact heach rows
            | none =>
              simp only
              rw [ihl (fun n2 c2 hm => hsub n2 c2 (List.mem_cons_of_mem _ hm)),
                SetProperty_other _ _ _ hqp]
              exact heach rows
      have hl := hloop cs (fun _ _ hm => hm) (BuildParams rec k) h rec
      simp only [Build_node]
      cases (buildNested db cs p (BuildParams rec k) h rec).err with
      | some err => exact hl
      | none =>
        simp only [finishBuild]
        rw [InferMapping_other _ _ hqp]
        exact hl

theorem Schema.nodeAt_child {s c : Schema} {name : String} (rest : Path)
    (hget : Map.get? s.children name = some c) :
    Schema.nodeAt s (name :: rest) = Schema.nodeAt c rest := by
  simp only [Schema.nodeAt, hget]

theorem TreeInv.child {s c : Schema} {name : String} {p : Path} {h : Store}
    (hget : Map.get? s.children name = some c) (hinv : TreeInv s p h) :
    TreeInv c (p ++ [name]) h := by
  intro q n hn
  have hcell := hinv (name :: q) n (by rw [Schema.nodeAt_child q hget]; exact hn)
  simpa [List.append_assoc] using hcell

/-- The state of the tree after a build of one nested schema. -/
theorem TreeInv.of_child {s c : Schema} {name : String} {p : Path} {h h1 : Store}
    (hget : Map.get? s.children name = some c) (hinv : TreeInv s p h)
    (hchild : TreeInv c (p ++ [name]) h1)
    (hframe : ∀ q, ¬ (p ++ [name]) <+: q → h1 q = h q) : TreeInv s p h1 := by
  intro q n hn
  by_cases hpre : (p ++ [name]) <+: (p ++ q)
  · have hq : [name] <+: q := (List.prefix_append_right_inj p).1 hpre
    obtain ⟨rest, hrest⟩ := hq
    simp only [List.singleton_append] at hrest
    subst hrest
    rw [Schema.nodeAt_child rest hget] at hn
    have hcell := hchild rest n hn
    simpa [List.append_assoc] using hcell
  · rw [hframe _ hpre]
    exact hinv q n hn

/-- The state of the tree after a write to the mapping of its root. -/
theorem TreeInv.of_root {s : Schema} {p : Path} {h h1 : Store} (hinv : TreeInv s p h)
    (hframe : ∀ q, q ≠ p → h1 q = h q) (hroot : CellInv s p (h1 p)) : TreeInv s p h1 := by
  intro q n hn
  cases q with
  | nil =>
    simp only [Schema.nodeAt, Option.some.injEq] at hn
    subst hn
    simpa using hroot
  | cons name rest =>
    have hne : p ++ name :: rest ≠ p := by
      intro heq
      have := congrArg List.length heq
      simp at this
    rw [hframe _ hne]
    exact hinv _ n hn

theorem TreeInv.root {s : Schema} {p : Path} {h : Store} (hinv : TreeInv s p h) :
    CellInv s p (h p) := by
  simpa using hinv [] s rfl

theorem CellInv_SetProperty {s : Schema} {p : Path} {h : Store} {name : String}
    (hcell : CellInv s p (h p)) (hname : name ∈ Map.keys s.children) :
    CellInv s p (SetProperty h p name (PropRef.node (p ++ [name])) p) := by
  rw [CellInv, SetProperty_properties]
  refine ⟨?_, ?_⟩
  · intro key hkey
    by_cases hk : name = key
    · subst hk
      exact Or.inr (Map.get?_set_self _ _ _)
    · rw [Map.get?_set_ne _ _ hk]
      exact hcell.1 key hkey
  · intro f hf hnot
    have hk : name ≠ f := fun heq => hnot (heq ▸ hname)
    rw [Map.get?_set_ne _ _ hk]
    exact hcell.2 f hf hnot

theorem CellInv_InferMapping {s : Schema} {p : Path} {h : Store} {rec : Record}
    (hcell : CellInv s p (h p))
    (hreg : ∀ key ∈ Map.keys s.children, (Map.get? (h p).properties key).isSome = true)
    (hgone : ∀ f ∈ s.exclude, Map.get? rec f = none) :
    CellInv s p (InferMapping h p rec p) := by
  refine ⟨?_, ?_⟩
  · intro key hkey
    obtain ⟨e, he⟩ := Option.isSome_iff_exists.1 (hreg key hkey)
    rcases hcell.1 key hkey with hnone | hnode
    · rw [hnone] at he; cases he
    · exact Or.inr (InferMapping_keeps h p rec hnode)
  · intro f hf hnot
    cases hres : Map.get? (InferMapping h p rec p).properties f with
    | none => rfl
    | some e =>
      obtain ⟨v, hv, _⟩ := InferMapping_new h p rec (hcell.2 f hf hnot) hres
      have hin : f ∈ Map.keys rec := List.mem_map_of_mem Prod.fst hv
      exact absurd hin ((Map.get?_eq_none_iff rec f).1 (hgone f hf))

theorem buildEach_inv (b : Store → Record → BuildResult) (I : Store → Prop)
    (hb : ∀ h row, I h → I (b h row).store ∧ Store.Grows h (b h row).store)
    (rows : List Record) :
    ∀ h, I h → I (buildEach b h rows).1 ∧ Store.Grows h (buildEach b h rows).1 := by
  induction rows with
  | nil => intro h hI; exact ⟨hI, Store.Grows.refl h⟩
  | cons row rows ih =>
    intro h hI
    have hrow := hb h row hI
    simp only [buildEach]
    cases (b h row).err with
    | some e => exact hrow
    | none =>
      have htl := ih _ hrow.1
      exact ⟨htl.1, hrow.2.trans htl.2⟩

/-- The last statements of `Build` keep the state of the tree. -/
theorem finishBuild_inv {s : Schema} {p : Path} {h : Store} (rec : Record)
    (hinv : TreeInv s p h)
    (hreg : ∀ key ∈ Map.keys s.children, (Map.get? (h p).properties key).isSome = true) :
    TreeInv s p (finishBuild s.exclude p h rec).store
      ∧ Store.Grows h (finishBuild s.exclude p h rec).store := by
  simp only [finishBuild]
  refine ⟨?_, Store.Grows_InferMapping h p _⟩
  apply TreeInv.of_root hinv (fun q hq => InferMapping_other h _ hq)
  exact CellInv_InferMapping hinv.root hreg (fun f hf => Map.get?_deleteAll_mem s.exclude rec hf)

/-- A build keeps the state of the tree under its node, and the mappings grow. -/
theorem Build_inv (db : DB) (s : Schema) :
    Schema.wf s = true → ∀ p h rec, TreeInv s p h →
      TreeInv s p (Build db s p h rec).store ∧ Store.Grows h (Build db s p h rec).store := by
  induction s using Schema.induct with
  | step t k e x n ih =>
    intro hwf p h rec hinv
    cases n with
    | none =>
      rw [Build_leaf]
      exact finishBuild_inv (s := Schema.mk t k e x none) rec hinv
        (fun key hkey => by simp [Schema.children, Schema.nested, Map.keys] at hkey)
    | some cs =>
      obtain ⟨hnd, hcwf⟩ := Schema.mem_wf hwf
      have hloop : ∀ (l : List (String × Schema)), (∀ name c, (name, c) ∈ l → (name, c) ∈ cs) →
          ∀ params h rec, TreeInv (Schema.mk t k e x (some cs)) p h →
            TreeInv (Schema.mk t k e x (some cs)) p (buildNested db l p params h rec).store
              ∧ Store.Grows h (buildNested db l p params h rec).store
              ∧ ((buildNested db l p params h rec).err = none → ∀ name ∈ Map.keys l,
                (Map.get? ((buildNested db l p params h rec).store p).properties name).isSome
                  = true) := by
        intro l
        induction l with
        | nil =>
          intro _ params h rec hinv
          simp only [buildNested_nil]
          exact ⟨hinv, Store.Grows.refl h, fun _ name hname => by simp [Map.keys] at hname⟩
        | cons hd tl ihl =>
          obtain ⟨name, c⟩ := hd
          intro hsub params h rec hinv
          have hmem : (name, c) ∈ cs := hsub name c (by simp)
          have hget : Map.get? (Schema.mk t k e x (some cs)).children name = some c :=
            Map.get?_of_mem hnd hmem
          have hkey : name ∈ Map.keys (Schema.mk t k e x (some cs)).children :=
            Map.mem_keys_of_get? hget
          have hc := ih name c (by simpa using hmem) (hcwf name c hmem) (p ++ [name])
          simp only [buildNested_cons]
          cases hfetch : FetchAll db c.sql params with
          | error err => exact ⟨hinv, Store.Grows.refl h, fun hno => by simp at hno⟩
          | ok rows =>
            have heach := buildEach_inv (Build db c (p ++ [name])) (TreeInv c (p ++ [name]))
              (fun h row hI => hc h row hI) rows h (TreeInv.child hget hinv)
            have hframe := buildEach_frame (Build db c (p ++ [name])) (p ++ [name])
              (fun h row q hq => Build_frame db c _ h row q hq) rows h
            have hinv1 := TreeInv.of_child hget hinv heach.1 hframe
            simp only
            cases herr : (buildEach (Build db c (p ++ [name])) h rows).2.2 with
            | some err => exact ⟨hinv1, heach.2, fun hno => by simp at hno⟩
            | none =>
              simp only
              have hgrow2 := Store.Grows_SetProperty
                (buildEach (Build db c (p ++ [name])) h rows).1 p name
                (PropRef.node (p ++ [name])) (hinv1.root.1 name hkey)
              have hinv2 := TreeInv.of_root hinv1
                (fun q hq => SetProperty_other _ name (PropRef.node (p ++ [name])) hq)
                (CellInv_SetProperty hinv1.root hkey)
              have htl := ihl (fun n2 c2 hm => hsub n2 c2 (List.mem_cons_of_mem _ hm)) params
                _ (Map.set rec name
                  (Value.records (buildEach (Build db c (p ++ [name])) h rows).2.1)) hinv2
              refine ⟨htl.1, heach.2.trans (hgrow2.trans htl.2.1), ?_⟩
              intro hno key hkeyl
              have hsplit : key = name ∨ key ∈ Map.keys tl := by
                simpa [Map.keys] using hkeyl
              rcases hsplit with heq | hin
              · subst heq
                have hset : Map.get? (SetProperty
                    (buildEach (Build db c (p ++ [key])) h rows).1 p key
                    (PropRef.node (p ++ [key])) p).properties key
                    = some (PropRef.node (p ++ [key])) := by
                  rw [SetProperty_properties, Map.get?_set_self]
                rw [(htl.2.1 p).2 key _ hset]
                rfl
              · exact htl.2.2 hno key hin
      have hl := hloop cs (fun _ _ hm => hm) (BuildParams rec k) h rec hinv
      simp only [Build_node]
      cases herr : (buildNested db cs p (BuildParams rec k) h rec).err with
      | some err => exact ⟨hl.1, hl.2.1⟩
      | none =>
        have hfin := finishBuild_inv (s := Schema.mk t k e x (some cs))
          (buildNested db cs p (BuildParams rec k) h rec).record hl.1
          (by simpa [Schema.children, Schema.nested] using hl.2.2 herr)
        exact ⟨hfin.1, hl.2.1.trans hfin.2⟩

/-! ## Validation -/

theorem Validate_leaf (t : String) (k e : List String) (x : String) (p : Path) (h : Store) :
    Validate (Schema.mk t k e x none) p h = (Store.write h p emptyMapping, none) := by
  simp only [Validate]

theorem Validate_node (t : String) (k e : List String) (x : String)
    (cs : List (String × Schema)) (p : Path) (h : Store) :
    Validate (Schema.mk t k e x (some cs)) p h =
      if k.length = 0 then
        (Store.write h p emptyMapping, some "A key is required to included nested objects.")
      else validateNested t cs p (Store.write h p emptyMapping) := by
  simp only [Validate]

theorem validateNested_nil (t : String) (p : Path) (h : Store) :
    validateNested t [] p h = (h, none) := by
  simp only [validateNested]

theorem validateNested_cons (t : String) (n : String) (c : Schema)
    (rest : List (String × Schema)) (p : Path) (h : Store) :
    validateNested t ((n, c) :: rest) p h =
      match (Validate c (p ++ [n]) h).2 with
      | some err => ((Validate c (p ++ [n]) h).1, some (t ++ "/" ++ n ++ ": " ++ err))
      | none => validateNested t rest p (Validate c (p ++ [n]) h).1 := by
  simp only [validateNested]

theorem Store.write_empty {h : Store} {p q : Path} (hq : h q = emptyMapping) :
    Store.write h p emptyMapping q = emptyMapping := by
  by_cases hqp : q = p
  · subst hqp; exact Store.write_same h q _
  · rw [Store.write_other h _ hqp]; exact hq

/-- A mapping that is empty stays empty under `Validate`. -/
theorem Validate_keeps_empty (s : Schema) :
    ∀ p h q, h q = emptyMapping → (Validate s p h).1 q = emptyMapping := by
  induction s using Schema.induct with
  | step t k e x n ih =>
    intro p h q hq
    cases n with
    | none => rw [Validate_leaf]; exact Store.write_empty hq
    | some cs =>
      have hloop : ∀ (l : List (String × Schema)), (∀ name c, (name, c) ∈ l → (name, c) ∈ cs) →
          ∀ h, h q = emptyMapping → (validateNested t l p h).1 q = emptyMapping := by
        intro l
        induction l with
        | nil => intro _ h hq; rw [validateNested_nil]; exact hq
        | cons hd tl ihl =>
          obtain ⟨name, c⟩ := hd
          intro hsub h hq
          have hc := ih name c (by simpa using hsub name c (by simp)) (p ++ [name]) h q hq
          rw [validateNested_cons]
          cases (Validate c (p ++ [name]) h).2 with
          | some err => exact hc
          | none => exact ihl (fun n2 c2 hm => hsub n2 c2 (List.mem_cons_of_mem _ hm)) _ hc
      rw [Validate_node]
      split
      · exact Store.write_empty hq
      · exact hloop cs (fun _ _ hm => hm) _ (Store.write_empty hq)

/-- After a `Validate` that returns no error the mapping of every node of the
tree is the empty mapping of type nested. -/
theorem Validate_ok_empty (s : Schema) :
    ∀ p h, (Validate s p h).2 = none →
      ∀ q n, Schema.nodeAt s q = some n → (Validate s p h).1 (p ++ q) = emptyMapping := by
  induction s using Schema.induct with
  | step t k e x n ih =>
    intro p h hok q node hnode
    cases n with
    | none =>
      cases q with
      | nil => rw [Validate_leaf]; simp [Store.write]
      | cons name rest =>
        simp [Schema.nodeAt, Schema.children, Schema.nested, Map.get?] at hnode
    | some cs =>
      have hloop : ∀ (l : List (String × Schema)), (∀ name c, (name, c) ∈ l → (name, c) ∈ cs) →
          ∀ h, (validateNested t l p h).2 = none →
            ∀ name c, Map.get? l name = some c → ∀ q n, Schema.nodeAt c q = some n →
              (validateNested t l p h).1 ((p ++ [name]) ++ q) = emptyMapping := by
        intro l
        induction l with
        | nil => intro _ h _ name c hget; simp [Map.get?] at hget
        | cons hd tl ihl =>
          obtain ⟨n1, c1⟩ := hd
          intro hsub h hok name c hget q n hn
          have hsub2 : ∀ n2 c2, (n2, c2) ∈ tl → (n2, c2) ∈ cs :=
            fun n2 c2 hm => hsub n2 c2 (List.mem_cons_of_mem _ hm)
          rw [validateNested_cons] at hok ⊢
          cases hv : (Validate c1 (p ++ [n1]) h).2 with
          | some err => simp [hv] at hok
          | none =>
            simp only [hv] at hok ⊢
            by_cases hname : n1 = name
            · subst hname
              simp only [Map.get?, if_true, Option.some.injEq] at hget
              subst hget
              have hcell := ih n1 c1 (by simpa using hsub n1 c1 (by simp)) (p ++ [n1]) h hv q n hn
              have hkeep : ∀ (l2 : List (String × Schema)),
                  (∀ n2 c2, (n2, c2) ∈ l2 → (n2, c2) ∈ cs) → ∀ h2 r, h2 r = emptyMapping →
                    (validateNested t l2 p h2).1 r = emptyMapping := by
                intro l2
                induction l2 with
                | nil => intro _ h2 r hr; rw [validateNested_nil]; exact hr
                | cons hd2 tl2 ih2 =>
                  obtain ⟨n2, c2⟩ := hd2
                  intro hs2 h2 r hr
                  have hc2 := Validate_keeps_empty c2 (p ++ [n2]) h2 r hr
                  rw [validateNested_cons]
                  cases (Validate c2 (p ++ [n2]) h2).2 with
                  | some err => exact hc2
                  | none =>
                    exact ih2 (fun n3 c3 hm => hs2 n3 c3 (List.mem_cons_of_mem _ hm)) _ r hc2
              exact hkeep tl hsub2 _ _ hcell
            · simp only [Map.get?, hname, if_false] at hget
              exact ihl hsub2 _ hok name c hget q n hn
      rw [Validate_node] at hok ⊢
      by_cases hk : k.length = 0
      · simp [hk] at hok
      · simp only [hk, if_false] at hok ⊢
        cases q with
        | nil =>
          have hroot : Store.write h p emptyMapping (p ++ []) = emptyMapping := by
            simp [Store.write]
          have hkeep : ∀ (l2 : List (String × Schema)) (h2 : Store) (r : Path),
              h2 r = emptyMapping → (validateNested t l2 p h2).1 r = emptyMapping := by
            intro l2
            induction l2 with
            | nil => intro h2 r hr; rw [validateNested_nil]; exact hr
            | cons hd2 tl2 ih2 =>
              obtain ⟨n2, c2⟩ := hd2
              intro h2 r hr
              have hc2 := Validate_keeps_empty c2 (p ++ [n2]) h2 r hr
              rw [validateNested_cons]
              cases (Validate c2 (p ++ [n2]) h2).2 with
              | some err => exact hc2
              | none => exact ih2 _ r hc2
          exact hkeep cs _ _ hroot
        | cons name rest =>
          simp only [Schema.nodeAt, Schema.children, Schema.nested, Option.getD_some] at hnode
          cases hget : Map.get? cs name with
          | none => simp [hget] at hnode
          | some c =>
            simp only [hget] at hnode
            have hcell := hloop cs (fun _ _ hm => hm) _ hok name c hget rest node hnode
            simpa [List.append_assoc] using hcell

theorem CellInv_empty (n : Schema) (p : Path) : CellInv n p emptyMapping :=
  ⟨fun _ _ => Or.inl rfl, fun _ _ _ => rfl⟩

/-- The mappings of a tree that `Validate` has accepted are in the state the
builds keep. -/
theorem Validate_inv (s : Schema) (h : Store) (hok : (Validate s [] h).2 = none) :
    TreeInv s [] (Validate s [] h).1 := by
  intro q n hn
  rw [Validate_ok_empty s [] h hok q n hn]
  exact CellInv_empty n _

theorem runBuilds_inv (s : Schema) (hwf : Schema.wf s = true) (builds : List (DB × Record)) :
    ∀ h, TreeInv s [] h →
      TreeInv s [] (runBuilds s h builds) ∧ Store.Grows h (runBuilds s h builds) := by
  induction builds with
  | nil => intro h hinv; exact ⟨hinv, Store.Grows.refl h⟩
  | cons b builds ih =>
    obtain ⟨db, rec⟩ := b
    intro h hinv
    have hone := Build_inv db s hwf [] h rec hinv
    have htl := ih _ hone.1
    exact ⟨htl.1, hone.2.trans htl.2⟩

theorem runBuilds_append (s : Schema) (before after : List (DB × Record)) :
    ∀ h, runBuilds s h (before ++ after) = runBuilds s (runBuilds s h before) after := by
  induction before with
  | nil => intro h; rfl
  | cons b before ih =>
    obtain ⟨db, rec⟩ := b
    intro h
    simp only [List.cons_append, runBuilds]
    exact ih _

theorem typeTag_of_grows {h h2 : Store} (hg : Store.Grows h h2) {p : Path} {field tag : String}
    (htag : typeTag h p field = some tag) : typeTag h2 p field = some tag := by
  unfold typeTag at htag ⊢
  cases hget : Map.get? (h p).properties field with
  | none => simp [hget] at htag
  | some e =>
    rw [(hg p).2 field e hget]
    rw [hget] at htag
    cases e with
    | fresh t => exact htag
    | node q =>
      simp only [Option.some.injEq] at htag ⊢
      rw [(hg q).1]
      exact htag

/-! ## Sequences of builds -/

/-- C3, as stated, fails: a nested schema whose name is in the exclusion set of
its parent is registered in the mapping of the parent by the loop over the
nested schemas, and stays registered. -/
theorem Build_maps_excluded_nested :
    Schema.wf hiddenVisitsSchema = true
      ∧ (Validate hiddenVisitsSchema [] sampleStore).2 = none
      ∧ "visits" ∈ hiddenVisitsSchema.exclude
      ∧ Map.get? (runBuilds hiddenVisitsSchema (Validate hiddenVisitsSchema [] sampleStore).1
            [(sampleDB, personRow)] []).properties "visits"
          = some (PropRef.node ["visits"]) := by
  decide

/-- C3, amended: starting from a tree `Validate` has accepted, after every
sequence of builds of the root, successful or failed, a field named in the
exclusion set of a node that is not the name of one of its nested schemas has
no entry in the properties of the mapping of that node. -/
theorem Build_excluded_unmapped (s : Schema) (hwf : Schema.wf s = true) (h : Store)
    (hval : (Validate s [] h).2 = none) (builds : List (DB × Record)) (p : Path) (n : Schema)
    (hnode : Schema.nodeAt s p = some n) (f : String) (hf : f ∈ n.exclude)
    (hnested : f ∉ Map.keys n.children) :
    Map.get? (runBuilds s (Validate s [] h).1 builds p).properties f = none := by
  have hinv := (runBuilds_inv s hwf builds _ (Validate_inv s h hval)).1
  have hcell := hinv p n hnode
  simp only [List.nil_append] at hcell
  exact hcell.2 f hf hnested

theorem Build_excluded_unmapped_witness :
    Schema.wf personSchema = true
      ∧ (Validate personSchema [] sampleStore).2 = none
      ∧ Schema.nodeAt personSchema ["visits"] = some visitSchema
      ∧ "person_id" ∈ visitSchema.exclude
      ∧ "person_id" ∉ Map.keys visitSchema.children
      ∧ Map.get? (runBuilds personSchema (Validate personSchema [] sampleStore).1
            [(sampleDB, personRow), (downDB, numberedRow)] ["visits"]).properties "person_id"
          = none
      ∧ Map.get? (runBuilds personSchema (Validate personSchema [] sampleStore).1
            [(sampleDB, personRow), (downDB, numberedRow)] ["visits"]).properties "day"
          = some (PropRef.fresh "date") :=
  ⟨by decide, by decide, rfl, by decide, by decide,
    Build_excluded_unmapped personSchema (by decide) sampleStore (by decide)
      [(sampleDB, personRow), (downDB, numberedRow)] ["visits"] visitSchema rfl "person_id"
      (by decide) (by decide),
    by decide⟩

/-- C5: starting from a tree `Validate` has accepted, across every sequence of
builds of the root executed one after the other, successful or failed, a field
that has an entry in the mapping of a node keeps the type tag it is registered
with through all the builds that follow. -/
theorem Build_first_writer_wins (s : Schema) (hwf : Schema.wf s = true) (h : Store)
    (hval : (Validate s [] h).2 = none) (before after : List (DB × Record)) (p : Path)
    (field tag : String)
    (hreg : typeTag (runBuilds s (Validate s [] h).1 before) p field = some tag) :
    typeTag (runBuilds s (Validate s [] h).1 (before ++ after)) p field = some tag := by
  have hbefore := (runBuilds_inv s hwf before _ (Validate_inv s h hval)).1
  have hafter := (runBuilds_inv s hwf after _ hbefore).2
  rw [runBuilds_append]
  exact typeTag_of_grows hafter hreg

theorem Build_first_writer_wins_witness :
    Schema.wf personSchema = true
      ∧ (Validate personSchema [] sampleStore).2 = none
      ∧ typeTag (runBuilds personSchema (Validate personSchema [] sampleStore).1
            [(sampleDB, personRow)]) [] "name" = some "string"
      ∧ typeTag (runBuilds personSchema (Validate personSchema [] sampleStore).1
            ([(sampleDB, personRow)] ++ [(downDB, numberedRow), (sampleDB, numberedRow)]))
          [] "name" = some "string"
      ∧ typeTag (runBuilds personSchema (Validate personSchema [] sampleStore).1
            [(sampleDB, numberedRow)]) [] "name" = some "long" :=
  ⟨by decide, by decide, by decide,
    Build_first_writer_wins personSchema (by decide) sampleStore (by decide)
      [(sampleDB, personRow)] [(downDB, numberedRow), (sampleDB, numberedRow)] [] "name"
      "string" (by decide),
    by decide⟩

theorem Validate_error_iff_aux (s : Schema) :
    Schema.wf s = true → ∀ p h, ((Validate s p h).2.isSome = true ↔
      ∃ q n, Schema.nodeAt s q = some n ∧ n.nested.isSome = true ∧ n.key = []) := by
  induction s using Schema.induct with
  | step t k e x n ih =>
    intro hwf p h
    cases n with
    | none =>
      rw [Validate_leaf]
      constructor
      · intro hsome; simp at hsome
      · rintro ⟨q, n, hnode, hnested, _⟩
        cases q with
        | nil =>
          simp only [Schema.nodeAt, Option.some.injEq] at hnode
          subst hnode
          simp [Schema.nested] at hnested
        | cons name rest =>
          simp [Schema.nodeAt, Schema.children, Schema.nested, Map.get?] at hnode
    | some cs =>
      obtain ⟨hnd, hcwf⟩ := Schema.mem_wf hwf
      have hloop : ∀ (l : List (String × Schema)), (∀ name c, (name, c) ∈ l → (name, c) ∈ cs) →
          ∀ h, ((validateNested t l p h).2.isSome = true ↔
            ∃ name c, (name, c) ∈ l ∧ ∃ q n, Schema.nodeAt c q = some n
              ∧ n.nested.isSome = true ∧ n.key = []) := by
        intro l
        induction l with
        | nil =>
          intro _ h
          rw [validateNested_nil]
          constructor
          · intro hsome; simp at hsome
          · rintro ⟨name, c, hm, _⟩; cases hm
        | cons hd tl ihl =>
          obtain ⟨n1, c1⟩ := hd
          intro hsub h
          have hc := ih n1 c1 (by simpa using hsub n1 c1 (by simp))
            (hcwf n1 c1 (hsub n1 c1 (by simp))) (p ++ [n1]) h
          have htl := ihl (fun n2 c2 hm => hsub n2 c2 (List.mem_cons_of_mem _ hm))
            (Validate c1 (p ++ [n1]) h).1
          rw [validateNested_cons]
          cases hv : (Validate c1 (p ++ [n1]) h).2 with
          | some err =>
            rw [hv] at hc
            simp only [Option.isSome_some, true_iff]
            exact ⟨n1, c1, by simp, hc.1 rfl⟩
          | none =>
            rw [hv] at hc
            simp only
            rw [htl]
            constructor
            · rintro ⟨name, c, hm, hbad⟩
              exact ⟨name, c, List.mem_cons_of_mem _ hm, hbad⟩
            · rintro ⟨name, c, hm, hbad⟩
              rcases List.mem_cons.1 hm with heq | hin
              · cases heq
                have := hc.2 hbad
                simp at this
              · exact ⟨name, c, hin, hbad⟩
      rw [Validate_node]
      by_cases hk : k.length = 0
      · simp only [hk, if_true, Option.isSome_some, true_iff]
        exact ⟨[], _, rfl, rfl, List.length_eq_zero.1 hk⟩
      · simp only [hk, if_false]
        rw [hloop cs (fun _ _ hm => hm)]
        constructor
        · rintro ⟨name, c, hm, q, n, hnode, hbad⟩
          refine ⟨name :: q, n, ?_, hbad⟩
          have hget : Map.get? (Schema.mk t k e x (some cs)).children name = some c :=
            Map.get?_of_mem hnd hm
          rw [Schema.nodeAt_child q hget]
          exact hnode
        · rintro ⟨q, n, hnode, hbad⟩
          cases q with
          | nil =>
            simp only [Schema.nodeAt, Option.some.injEq] at hnode
            subst hnode
            have hkey : k = [] := hbad.2
            exact absurd (by simp [hkey]) hk
          | cons name rest =>
            simp only [Schema.nodeAt, Schema.children, Schema.nested, Option.getD_some] at hnode
            cases hget : Map.get? cs name with
            | none => simp [hget] at hnode
            | some c =>
              simp only [hget] at hnode
              exact ⟨name, c, Map.mem_of_get? hget, rest, n, hnode, hbad⟩

/-- What the guard of `Validate` tests as it is written: for every schema tree
whose nested maps are Go maps, an error is returned exactly when some node of
the tree has a nested map that is not nil (it may be empty) and an empty key
set. -/
theorem Validate_error_iff (s : Schema) (hwf : Schema.wf s = true) (p : Path) (h : Store) :
    (Validate s p h).2.isSome = true ↔
      ∃ q n, Schema.nodeAt s q = some n ∧ n.nested.isSome = true ∧ n.key = [] :=
  Validate_error_iff_aux s hwf p h

theorem Validate_error_iff_witness :
    Schema.wf keylessVisitsSchema = true
      ∧ (Validate keylessVisitsSchema [] sampleStore).2
          = some "person/visits: A key is required to included nested objects."
      ∧ (∃ q n, Schema.nodeAt keylessVisitsSchema q = some n ∧ n.nested.isSome = true
          ∧ n.key = [])
      ∧ (Validate personSchema [] sampleStore).2 = none
      ∧ ¬ (∃ q n, Schema.nodeAt personSchema q = some n ∧ n.nested.isSome = true
          ∧ n.key = []) :=
  ⟨by decide, by decide,
    (Validate_error_iff keylessVisitsSchema (by decide) [] sampleStore).1 (by decide),
    by decide,
    fun hbad => absurd ((Validate_error_iff personSchema (by decide) [] sampleStore).2 hbad)
      (by decide)⟩

/-! ## The data writer -/

/-- When the action header and every record can be encoded, `DataWriter`
writes the specified output. -/
theorem DataWriter_eq_spec (encode : Doc → Option String) (index type : String)
    (recs : List Record)
    (hrecs : ∀ rec ∈ recs, (encode (Doc.record rec)).isSome = true) :
    DataWriter encode index type recs = specDataOutput encode index type recs := by
  induction recs with
  | nil => rfl
  | cons rec rest ih =>
    have htl := ih (fun r hr => hrecs r (List.mem_cons_of_mem _ hr))
    obtain ⟨body, hbody⟩ := Option.isSome_iff_exists.1 (hrecs rec (by simp))
    simp only [DataWriter, specDataOutput]
    cases hhead : encode (Doc.action index type) with
    | none => simpa using htl
    | some header => simp [hbody, htl]

end Sqltojson
